import Mathlib

/-!
# Verification of the `ordered_iter` merge-join library

The source (`src/lib.rs`) defines four lazy join iterators over ordered
(strictly increasing by key) input iterators:

* `InnerJoinMapIterator`    — map ⋈ map inner join,
* `InnerJoinSetIterator`    — set ∩ set inner join,
* `InnerJoinMapSetIterator` — map filtered by set,
* `OuterJoinIterator`       — map ∪ map outer join (over `Peekable` inputs).

Each Rust iterator is modelled as the list of its remaining elements, so a
`next()` call is embedded as a pure function that returns the produced item
(if any) together with the remaining state of both inputs.  The unbounded
`loop` inside each inner-join `next` consumes one element of one input per
round, so it is embedded with a structural fuel argument; every caller
instantiates the fuel with the exact remaining capacity
`xs.length + ys.length`, which makes the fuel cut-off branch unreachable
(`…_congr` lemmas below show insensitivity to any sufficient fuel).  The
emitted sequence of a join iterator is the list obtained by pulling `next`
repeatedly until it yields nothing.
-/

namespace OrderedIter

variable {K : Type*} {A : Type*} {B : Type*}

/-- Keys of a map-like sequence (first components of its pairs). -/
def mapKeys (l : List (K × A)) : List K := l.map Prod.fst

/-- Association-list lookup; used only to state properties of the joins. -/
def alookup [DecidableEq K] : List (K × A) → K → Option A
  | [], _ => none
  | (k', v) :: l, k => if k = k' then some v else alookup l k

/-- The "ordered map sequence" contract (`OrderedMapIterator`): the keys are
produced in strictly increasing order. -/
@[reducible] def IsOrderedMapSeq [LT K] (l : List (K × A)) : Prop :=
  List.Sorted (· < ·) (mapKeys l)

/-- The "ordered set sequence" contract (`OrderedSetIterator`): the elements
are produced in strictly increasing order. -/
@[reducible] def IsOrderedSetSeq [LT K] (l : List K) : Prop :=
  List.Sorted (· < ·) l

section Defs

variable [Ord K]

/-! ## Map–map inner join (`InnerJoinMapIterator`, src/lib.rs:87-130) -/

/-- The `loop { match key_a.cmp(&key_b) { … } }` body of
`InnerJoinMapIterator::next` (src/lib.rs:106-128).  `ka, da, kb, db` are the
current elements held in the loop's locals, `xs, ys` the remaining inputs.
`Less` advances side `a`, `Greater` advances side `b`, `Equal` yields
`(key_a, (data_a, data_b))`; if the side to advance is exhausted the whole
iterator returns `None`.  The fuel argument only bounds the recursion; each
round consumes one input element, so fuel `≥ xs.length + ys.length + 1`
makes the cut-off branch unreachable (the callers below always pass exactly
that, and the `…_congr` lemmas show the value is fuel-insensitive). -/
def innerJoinMapLoop : Nat → K → A → K → B → List (K × A) → List (K × B) →
    Option (K × (A × B)) × (List (K × A) × List (K × B))
  | 0, _, _, _, _, xs, ys => (none, (xs, ys))
  | fuel + 1, ka, da, kb, db, xs, ys =>
    match compare ka kb with
    | .lt =>
      match xs with
      | [] => (none, ([], ys))
      | (k, d) :: xs' => innerJoinMapLoop fuel k d kb db xs' ys
    | .eq => (some (ka, (da, db)), (xs, ys))
    | .gt =>
      match ys with
      | [] => (none, (xs, []))
      | (k, d) :: ys' => innerJoinMapLoop fuel ka da k d xs ys'

/-- `InnerJoinMapIterator::next` (src/lib.rs:95-129): pull one element from
each side (returning `None` if either is exhausted), then run the
comparison loop. -/
def innerJoinMapNext (xs : List (K × A)) (ys : List (K × B)) :
    Option (K × (A × B)) × (List (K × A) × List (K × B)) :=
  match xs with
  | [] => (none, ([], ys))
  | (ka, da) :: xs' =>
    match ys with
    | [] => (none, (xs', []))
    | (kb, db) :: ys' => innerJoinMapLoop (xs'.length + ys'.length + 1) ka da kb db xs' ys'

/-- Collect the sequence emitted by `InnerJoinMapIterator` by pulling
`innerJoinMapNext` repeatedly.  Each successful pull consumes at least one
element of each input, so `xs.length + ys.length` pulls always suffice. -/
def innerJoinMapDrive : Nat → List (K × A) → List (K × B) → List (K × (A × B))
  | 0, _, _ => []
  | fuel + 1, xs, ys =>
    match innerJoinMapNext xs ys with
    | (none, _) => []
    | (some o, (xs', ys')) => o :: innerJoinMapDrive fuel xs' ys'

/-- The full sequence emitted by `a.inner_join_map(b)`. -/
def innerJoinMap (xs : List (K × A)) (ys : List (K × B)) : List (K × (A × B)) :=
  innerJoinMapDrive (xs.length + ys.length) xs ys

/-! ## Set–set inner join (`InnerJoinSetIterator`, src/lib.rs:133-170) -/

/-- The comparison loop of `InnerJoinSetIterator::next` (src/lib.rs:152-168):
shape of the map–map loop with the values dropped; `Equal` yields `key_a`. -/
def innerJoinSetLoop : Nat → K → K → List K → List K →
    Option K × (List K × List K)
  | 0, _, _, xs, ys => (none, (xs, ys))
  | fuel + 1, ka, kb, xs, ys =>
    match compare ka kb with
    | .lt =>
      match xs with
      | [] => (none, ([], ys))
      | k :: xs' => innerJoinSetLoop fuel k kb xs' ys
    | .eq => (some ka, (xs, ys))
    | .gt =>
      match ys with
      | [] => (none, (xs, []))
      | k :: ys' => innerJoinSetLoop fuel ka k xs ys'

/-- `InnerJoinSetIterator::next` (src/lib.rs:141-169). -/
def innerJoinSetNext (xs ys : List K) : Option K × (List K × List K) :=
  match xs with
  | [] => (none, ([], ys))
  | ka :: xs' =>
    match ys with
    | [] => (none, (xs', []))
    | kb :: ys' => innerJoinSetLoop (xs'.length + ys'.length + 1) ka kb xs' ys'

/-- Collect the sequence emitted by `InnerJoinSetIterator`. -/
def innerJoinSetDrive : Nat → List K → List K → List K
  | 0, _, _ => []
  | fuel + 1, xs, ys =>
    match innerJoinSetNext xs ys with
    | (none, _) => []
    | (some o, (xs', ys')) => o :: innerJoinSetDrive fuel xs' ys'

/-- The full sequence emitted by `a.inner_join_set(b)` on two set
sequences. -/
def innerJoinSet (xs ys : List K) : List K :=
  innerJoinSetDrive (xs.length + ys.length) xs ys

/-! ## Set-filtered map join (`InnerJoinMapSetIterator`, src/lib.rs:172-212)

The iterator state is the pair `(map, set)` mirroring the struct fields
`InnerJoinMapSetIterator { map, set }`. `next` pulls the *set* side first. -/

/-- The comparison loop of `InnerJoinMapSetIterator::next`
(src/lib.rs:191-210): `key_set.cmp(&key_map)`; `Less` advances the set,
`Greater` advances the map, `Equal` yields `(key_set, data)`. -/
def innerJoinMapSetLoop : Nat → K → K → A → List (K × A) → List K →
    Option (K × A) × (List (K × A) × List K)
  | 0, _, _, _, ms, ss => (none, (ms, ss))
  | fuel + 1, ks, km, d, ms, ss =>
    match compare ks km with
    | .lt =>
      match ss with
      | [] => (none, (ms, []))
      | k :: ss' => innerJoinMapSetLoop fuel k km d ms ss'
    | .eq => (some (ks, d), (ms, ss))
    | .gt =>
      match ms with
      | [] => (none, ([], ss))
      | (k, d') :: ms' => innerJoinMapSetLoop fuel ks k d' ms' ss

/-- `InnerJoinMapSetIterator::next` (src/lib.rs:180-211): pull the set side
first, then the map side, then run the comparison loop. -/
def innerJoinMapSetNext (ms : List (K × A)) (ss : List K) :
    Option (K × A) × (List (K × A) × List K) :=
  match ss with
  | [] => (none, (ms, []))
  | ks :: ss' =>
    match ms with
    | [] => (none, ([], ss'))
    | (km, d) :: ms' => innerJoinMapSetLoop (ss'.length + ms'.length + 1) ks km d ms' ss'

/-- Collect the sequence emitted by `InnerJoinMapSetIterator`. -/
def innerJoinMapSetDrive : Nat → List (K × A) → List K → List (K × A)
  | 0, _, _ => []
  | fuel + 1, ms, ss =>
    match innerJoinMapSetNext ms ss with
    | (none, _) => []
    | (some o, (ms', ss')) => o :: innerJoinMapSetDrive fuel ms' ss'

/-- The full sequence emitted by the set-filtered map join. -/
def innerJoinMapSet (ms : List (K × A)) (ss : List K) : List (K × A) :=
  innerJoinMapSetDrive (ms.length + ss.length) ms ss

/-- `OrderedMapIterator::inner_join_set` (src/lib.rs:32-38): builds
`InnerJoinMapSetIterator { map: self, set }`. -/
def mapInnerJoinSet (ms : List (K × A)) (ss : List K) : List (K × A) × List K :=
  (ms, ss)

/-- `OrderedSetIterator::inner_join_map` (src/lib.rs:61-67): builds
`InnerJoinMapSetIterator { map, set: self }`. -/
def setInnerJoinMap (ss : List K) (ms : List (K × A)) : List (K × A) × List K :=
  (ms, ss)

/-- The sequence emitted by an `InnerJoinMapSetIterator` state. -/
def innerJoinMapSetRun (s : List (K × A) × List K) : List (K × A) :=
  innerJoinMapSet s.1 s.2

/-! ## Outer join (`OuterJoinIterator`, src/lib.rs:214-248)

The two `Peekable` inputs are modelled as plain lists: `peek` is `head?`
and a consuming `next` takes the head.  `OuterJoinIterator::next` first
computes `which` from the two peeks (`kb.cmp(ka)`, with an absent side
ordered last), then consumes via `.next().expect("no value found")`.  An
`expect` on an empty side — the panic — is modelled by the outer `none` of
the result; `some none` is normal end-of-sequence. -/

/-- `OuterJoinIterator::next` (src/lib.rs:222-247), with the `expect`
panics made explicit: result `none` = a panic branch was taken,
`some none` = both sides exhausted, `some (some (item, state))` = yield. -/
def outerJoinNextE (xs : List (K × A)) (ys : List (K × B)) :
    Option (Option ((K × (Option A × Option B)) × (List (K × A) × List (K × B)))) :=
  let which : Option Ordering :=
    match xs.head?, ys.head? with
    | some a, some b => some (compare b.1 a.1)
    | none, some _ => some .lt
    | some _, none => some .gt
    | none, none => none
  match which with
  | none => some none
  | some .eq =>
    match xs, ys with
    | (k, a) :: xs', (_, b) :: ys' => some (some ((k, (some a, some b)), (xs', ys')))
    | _, _ => none
  | some .lt =>
    match ys with
    | (k, v) :: ys' => some (some ((k, (none, some v)), (xs, ys')))
    | [] => none
  | some .gt =>
    match xs with
    | (k, v) :: xs' => some (some ((k, (some v, none)), (xs', ys)))
    | [] => none

/-- `OuterJoinIterator::next` with the (unreachable, see below) panic
collapsed into end-of-sequence. -/
def outerJoinNext (xs : List (K × A)) (ys : List (K × B)) :
    Option ((K × (Option A × Option B)) × (List (K × A) × List (K × B))) :=
  (outerJoinNextE xs ys).join

/-- Collect the sequence emitted by `OuterJoinIterator`. -/
def outerJoinDrive : Nat → List (K × A) → List (K × B) →
    List (K × (Option A × Option B))
  | 0, _, _ => []
  | fuel + 1, xs, ys =>
    match outerJoinNext xs ys with
    | none => []
    | some (o, (xs', ys')) => o :: outerJoinDrive fuel xs' ys'

/-- The full sequence emitted by `a.outer_join(b)`. -/
def outerJoin (xs : List (K × A)) (ys : List (K × B)) :
    List (K × (Option A × Option B)) :=
  outerJoinDrive (xs.length + ys.length) xs ys

/-! ## One pull of each iterator as a state transformer

For the exhaustion claims we view each iterator as a state machine whose
state is the pair of remaining inputs; one pull returns the produced item
and the successor state. -/

/-- One pull of `InnerJoinMapIterator` on its state. -/
def innerJoinMapStep (s : List (K × A) × List (K × B)) :
    Option (K × (A × B)) × (List (K × A) × List (K × B)) :=
  innerJoinMapNext s.1 s.2

/-- The state after one pull of `InnerJoinMapIterator`. -/
def innerJoinMapAdvance (s : List (K × A) × List (K × B)) :
    List (K × A) × List (K × B) :=
  (innerJoinMapStep s).2

/-- One pull of `InnerJoinSetIterator` on its state. -/
def innerJoinSetStep (s : List K × List K) : Option K × (List K × List K) :=
  innerJoinSetNext s.1 s.2

/-- The state after one pull of `InnerJoinSetIterator`. -/
def innerJoinSetAdvance (s : List K × List K) : List K × List K :=
  (innerJoinSetStep s).2

/-- One pull of `InnerJoinMapSetIterator` on its state. -/
def innerJoinMapSetStep (s : List (K × A) × List K) :
    Option (K × A) × (List (K × A) × List K) :=
  innerJoinMapSetNext s.1 s.2

/-- The state after one pull of `InnerJoinMapSetIterator`. -/
def innerJoinMapSetAdvance (s : List (K × A) × List K) : List (K × A) × List K :=
  (innerJoinMapSetStep s).2

/-- One pull of `OuterJoinIterator` on its state (when `next` yields
nothing, nothing was consumed: the state is unchanged). -/
def outerJoinStep (s : List (K × A) × List (K × B)) :
    Option (K × (Option A × Option B)) × (List (K × A) × List (K × B)) :=
  match outerJoinNext s.1 s.2 with
  | none => (none, s)
  | some (o, s') => (some o, s')

/-- The state after one pull of `OuterJoinIterator`. -/
def outerJoinAdvance (s : List (K × A) × List (K × B)) :
    List (K × A) × List (K × B) :=
  (outerJoinStep s).2

end Defs

/-! ## The contract marker impls declared by the source

Whether a join's result can feed into a further join is decided at the type
level: the joins are only reachable through the `OrderedMapIterator` /
`OrderedSetIterator` traits, so a join type participates exactly when the
source declares the marker impl for it.  We transcribe the impl blocks of
src/lib.rs:275-297 as a table over the four join iterator types. -/

/-- The four join iterator types of the library (src/lib.rs:79-85). -/
inductive JoinIteratorType where
  | innerJoinMapIterator
  | innerJoinSetIterator
  | innerJoinMapSetIterator
  | outerJoinIterator

/-- Which join types the source declares `OrderedMapIterator` for
(src/lib.rs:275-291): `InnerJoinMapIterator` and `InnerJoinMapSetIterator`
only — there is no such impl for `OuterJoinIterator`. -/
def implementsOrderedMapIterator : JoinIteratorType → Bool
  | .innerJoinMapIterator => true
  | .innerJoinMapSetIterator => true
  | .innerJoinSetIterator => false
  | .outerJoinIterator => false

/-- Which join types the source declares `OrderedSetIterator` for
(src/lib.rs:293-297): `InnerJoinSetIterator` only. -/
def implementsOrderedSetIterator : JoinIteratorType → Bool
  | .innerJoinSetIterator => true
  | .innerJoinMapIterator => false
  | .innerJoinMapSetIterator => false
  | .outerJoinIterator => false

/-! ## Basic lemmas about the helpers -/

theorem mapKeys_nil : mapKeys ([] : List (K × A)) = [] := rfl

theorem mapKeys_cons (p : K × A) (l : List (K × A)) :
    mapKeys (p :: l) = p.1 :: mapKeys l := rfl

theorem mem_mapKeys {k : K} {l : List (K × A)} :
    k ∈ mapKeys l ↔ ∃ v, (k, v) ∈ l := by
  simp only [mapKeys, List.mem_map, Prod.exists]
  constructor
  · rintro ⟨a, b, hm, rfl⟩
    exact ⟨b, hm⟩
  · rintro ⟨v, hv⟩
    exact ⟨k, v, hv, rfl⟩

theorem alookup_isSome_iff [DecidableEq K] {l : List (K × A)} {k : K} :
    (alookup l k).isSome ↔ k ∈ mapKeys l := by
  induction l with
  | nil => simp [alookup, mapKeys]
  | cons p l ih =>
    obtain ⟨k', v⟩ := p
    by_cases h : k = k' <;> simp [alookup, mapKeys_cons, h, ih]

theorem alookup_cons [DecidableEq K] (k' : K) (v : A) (l : List (K × A)) (k : K) :
    alookup ((k', v) :: l) k = if k = k' then some v else alookup l k := rfl

theorem alookup_eq_none [DecidableEq K] {l : List (K × A)} {k : K}
    (h : k ∉ mapKeys l) : alookup l k = none := by
  cases h2 : alookup l k with
  | none => rfl
  | some v =>
    exact absurd (alookup_isSome_iff.1 (by simp [h2])) h

section MapLemmas

variable [Ord K]

/-! ## Fuel lemmas for the map–map inner join -/

theorem innerJoinMapLoop_length (fuel : Nat) (ka : K) (da : A) (kb : K) (db : B)
    (xs : List (K × A)) (ys : List (K × B)) :
    (innerJoinMapLoop fuel ka da kb db xs ys).2.1.length ≤ xs.length ∧
    (innerJoinMapLoop fuel ka da kb db xs ys).2.2.length ≤ ys.length := by
  induction fuel, ka, da, kb, db, xs, ys using innerJoinMapLoop.induct <;>
    simp_all [innerJoinMapLoop] <;> omega

theorem innerJoinMapNext_yield_length {xs : List (K × A)} {ys : List (K × B)}
    {o : K × (A × B)} {xs' : List (K × A)} {ys' : List (K × B)}
    (h : innerJoinMapNext xs ys = (some o, (xs', ys'))) :
    xs'.length < xs.length ∧ ys'.length < ys.length := by
  cases xs with
  | nil => simp [innerJoinMapNext] at h
  | cons p xs₀ =>
    obtain ⟨ka, da⟩ := p
    cases ys with
    | nil => simp [innerJoinMapNext] at h
    | cons q ys₀ =>
      obtain ⟨kb, db⟩ := q
      simp only [innerJoinMapNext] at h
      have hl := innerJoinMapLoop_length (xs₀.length + ys₀.length + 1) ka da kb db xs₀ ys₀
      rw [h] at hl
      simp only [List.length_cons]
      simp at hl
      omega

theorem innerJoinMapDrive_congr (n : Nat) :
    ∀ (m : Nat) (xs : List (K × A)) (ys : List (K × B)),
      xs.length + ys.length ≤ n → xs.length + ys.length ≤ m →
      innerJoinMapDrive n xs ys = innerJoinMapDrive m xs ys := by
  induction n with
  | zero =>
    intro m xs ys hn _
    have hx : xs = [] := List.length_eq_zero.1 (by omega)
    have hy : ys = [] := List.length_eq_zero.1 (by omega)
    subst hx; subst hy
    cases m with
    | zero => rfl
    | succ m => simp [innerJoinMapDrive, innerJoinMapNext]
  | succ n ih =>
    intro m xs ys hn hm
    cases m with
    | zero =>
      have hx : xs = [] := List.length_eq_zero.1 (by omega)
      have hy : ys = [] := List.length_eq_zero.1 (by omega)
      subst hx; subst hy
      simp [innerJoinMapDrive, innerJoinMapNext]
    | succ m =>
      simp only [innerJoinMapDrive]
      rcases hnext : innerJoinMapNext xs ys with ⟨o, xs', ys'⟩
      cases o with
      | none => simp
      | some o =>
        have hlt := innerJoinMapNext_yield_length hnext
        simp only []
        rw [ih m xs' ys' (by omega) (by omega)]

/-- The canonical iterator unfolding: the emitted sequence is one `next`
followed by the sequence of the successor state. -/
theorem innerJoinMap_eq_next (xs : List (K × A)) (ys : List (K × B)) :
    innerJoinMap xs ys =
      match innerJoinMapNext xs ys with
      | (none, _) => []
      | (some o, (X, Y)) => o :: innerJoinMap X Y := by
  cases xs with
  | nil =>
    cases ys with
    | nil => rfl
    | cons q ys₀ => simp [innerJoinMap, innerJoinMapDrive, innerJoinMapNext]
  | cons p xs₀ =>
    obtain ⟨ka, da⟩ := p
    cases ys with
    | nil => simp [innerJoinMap, innerJoinMapDrive, innerJoinMapNext]
    | cons q ys₀ =>
      obtain ⟨kb, db⟩ := q
      show innerJoinMapDrive ((xs₀.length + 1) + (ys₀.length + 1)) _ _ = _
      rw [show (xs₀.length + 1) + (ys₀.length + 1) = (xs₀.length + ys₀.length + 1) + 1
        by omega]
      simp only [innerJoinMapDrive]
      rcases hnext : innerJoinMapNext ((ka, da) :: xs₀) ((kb, db) :: ys₀) with ⟨o, X, Y⟩
      cases o with
      | none => simp
      | some o =>
        have hlt := innerJoinMapNext_yield_length hnext
        simp only [List.length_cons] at hlt
        show o :: innerJoinMapDrive (xs₀.length + ys₀.length + 1) X Y =
          o :: innerJoinMap X Y
        rw [innerJoinMapDrive_congr (xs₀.length + ys₀.length + 1) (X.length + Y.length)
          X Y (by omega) (by omega)]
        rfl

/-! ## Structural merge equations of the map–map inner join -/

theorem innerJoinMap_nil_left (ys : List (K × B)) :
    innerJoinMap ([] : List (K × A)) ys = [] := by
  rw [innerJoinMap_eq_next]
  simp [innerJoinMapNext]

theorem innerJoinMap_nil_right (xs : List (K × A)) :
    innerJoinMap xs ([] : List (K × B)) = [] := by
  rw [innerJoinMap_eq_next]
  cases xs with
  | nil => simp [innerJoinMapNext]
  | cons p xs₀ => obtain ⟨ka, da⟩ := p; simp [innerJoinMapNext]

theorem innerJoinMap_cons_cons (ka : K) (da : A) (kb : K) (db : B)
    (xs : List (K × A)) (ys : List (K × B)) :
    innerJoinMap ((ka, da) :: xs) ((kb, db) :: ys) =
      match compare ka kb with
      | .lt => innerJoinMap xs ((kb, db) :: ys)
      | .eq => (ka, (da, db)) :: innerJoinMap xs ys
      | .gt => innerJoinMap ((ka, da) :: xs) ys := by
  conv_lhs => rw [innerJoinMap_eq_next]
  simp only [innerJoinMapNext]
  rcases hc : compare ka kb with _ | _ | _
  · -- Less: advance side `a`; if it is exhausted the join ends
    cases xs with
    | nil =>
      simp [innerJoinMapLoop, hc, innerJoinMap_nil_left]
    | cons p xs₀ =>
      obtain ⟨k, d⟩ := p
      rw [show innerJoinMapLoop (((k, d) :: xs₀).length + ys.length + 1) ka da kb db
            ((k, d) :: xs₀) ys =
          innerJoinMapLoop (xs₀.length + ys.length + 1) k d kb db xs₀ ys by
        simp [innerJoinMapLoop, hc, Nat.add_right_comm]]
      simp [innerJoinMap_eq_next ((k, d) :: xs₀) ((kb, db) :: ys), innerJoinMapNext]
  · -- Equal: yield the pair
    simp [innerJoinMapLoop, hc]
  · -- Greater: advance side `b`; if it is exhausted the join ends
    cases ys with
    | nil =>
      simp [innerJoinMapLoop, hc, innerJoinMap_nil_right]
    | cons q ys₀ =>
      obtain ⟨k, d⟩ := q
      rw [show innerJoinMapLoop (xs.length + ((k, d) :: ys₀).length + 1) ka da kb db
            xs ((k, d) :: ys₀) =
          innerJoinMapLoop (xs.length + ys₀.length + 1) ka da k d xs ys₀ by
        simp [innerJoinMapLoop, hc]]
      simp [innerJoinMap_eq_next ((ka, da) :: xs) ((k, d) :: ys₀), innerJoinMapNext]

end MapLemmas

section SetLemmas

variable [Ord K]

/-! ## Fuel lemmas and merge equations for the set–set inner join -/

theorem innerJoinSetLoop_length (fuel : Nat) (ka kb : K) (xs ys : List K) :
    (innerJoinSetLoop fuel ka kb xs ys).2.1.length ≤ xs.length ∧
    (innerJoinSetLoop fuel ka kb xs ys).2.2.length ≤ ys.length := by
  induction fuel, ka, kb, xs, ys using innerJoinSetLoop.induct <;>
    simp_all [innerJoinSetLoop] <;> omega

theorem innerJoinSetNext_yield_length {xs ys : List K} {o : K} {xs' ys' : List K}
    (h : innerJoinSetNext xs ys = (some o, (xs', ys'))) :
    xs'.length < xs.length ∧ ys'.length < ys.length := by
  cases xs with
  | nil => simp [innerJoinSetNext] at h
  | cons ka xs₀ =>
    cases ys with
    | nil => simp [innerJoinSetNext] at h
    | cons kb ys₀ =>
      simp only [innerJoinSetNext] at h
      have hl := innerJoinSetLoop_length (xs₀.length + ys₀.length + 1) ka kb xs₀ ys₀
      rw [h] at hl
      simp only [List.length_cons]
      simp at hl
      omega

theorem innerJoinSetDrive_congr (n : Nat) :
    ∀ (m : Nat) (xs ys : List K),
      xs.length + ys.length ≤ n → xs.length + ys.length ≤ m →
      innerJoinSetDrive n xs ys = innerJoinSetDrive m xs ys := by
  induction n with
  | zero =>
    intro m xs ys hn _
    have hx : xs = [] := List.length_eq_zero.1 (by omega)
    have hy : ys = [] := List.length_eq_zero.1 (by omega)
    subst hx; subst hy
    cases m with
    | zero => rfl
    | succ m => simp [innerJoinSetDrive, innerJoinSetNext]
  | succ n ih =>
    intro m xs ys hn hm
    cases m with
    | zero =>
      have hx : xs = [] := List.length_eq_zero.1 (by omega)
      have hy : ys = [] := List.length_eq_zero.1 (by omega)
      subst hx; subst hy
      simp [innerJoinSetDrive, innerJoinSetNext]
    | succ m =>
      simp only [innerJoinSetDrive]
      rcases hnext : innerJoinSetNext xs ys with ⟨o, xs', ys'⟩
      cases o with
      | none => simp
      | some o =>
        have hlt := innerJoinSetNext_yield_length hnext
        simp only []
        rw [ih m xs' ys' (by omega) (by omega)]

/-- Canonical iterator unfolding for the set–set join. -/
theorem innerJoinSet_eq_next (xs ys : List K) :
    innerJoinSet xs ys =
      match innerJoinSetNext xs ys with
      | (none, _) => []
      | (some o, (X, Y)) => o :: innerJoinSet X Y := by
  cases xs with
  | nil =>
    cases ys with
    | nil => rfl
    | cons q ys₀ => simp [innerJoinSet, innerJoinSetDrive, innerJoinSetNext]
  | cons ka xs₀ =>
    cases ys with
    | nil => simp [innerJoinSet, innerJoinSetDrive, innerJoinSetNext]
    | cons kb ys₀ =>
      show innerJoinSetDrive ((xs₀.length + 1) + (ys₀.length + 1)) _ _ = _
      rw [show (xs₀.length + 1) + (ys₀.length + 1) = (xs₀.length + ys₀.length + 1) + 1
        by omega]
      simp only [innerJoinSetDrive]
      rcases hnext : innerJoinSetNext (ka :: xs₀) (kb :: ys₀) with ⟨o, X, Y⟩
      cases o with
      | none => simp
      | some o =>
        have hlt := innerJoinSetNext_yield_length hnext
        simp only [List.length_cons] at hlt
        show o :: innerJoinSetDrive (xs₀.length + ys₀.length + 1) X Y =
          o :: innerJoinSet X Y
        rw [innerJoinSetDrive_congr (xs₀.length + ys₀.length + 1) (X.length + Y.length)
          X Y (by omega) (by omega)]
        rfl

theorem innerJoinSet_nil_left (ys : List K) : innerJoinSet ([] : List K) ys = [] := by
  rw [innerJoinSet_eq_next]
  simp [innerJoinSetNext]

theorem innerJoinSet_nil_right (xs : List K) : innerJoinSet xs ([] : List K) = [] := by
  rw [innerJoinSet_eq_next]
  cases xs <;> simp [innerJoinSetNext]

theorem innerJoinSet_cons_cons (ka kb : K) (xs ys : List K) :
    innerJoinSet (ka :: xs) (kb :: ys) =
      match compare ka kb with
      | .lt => innerJoinSet xs (kb :: ys)
      | .eq => ka :: innerJoinSet xs ys
      | .gt => innerJoinSet (ka :: xs) ys := by
  conv_lhs => rw [innerJoinSet_eq_next]
  simp only [innerJoinSetNext]
  rcases hc : compare ka kb with _ | _ | _
  · cases xs with
    | nil => simp [innerJoinSetLoop, hc, innerJoinSet_nil_left]
    | cons k xs₀ =>
      rw [show innerJoinSetLoop ((k :: xs₀).length + ys.length + 1) ka kb
            (k :: xs₀) ys =
          innerJoinSetLoop (xs₀.length + ys.length + 1) k kb xs₀ ys by
        simp [innerJoinSetLoop, hc, Nat.add_right_comm]]
      simp [innerJoinSet_eq_next (k :: xs₀) (kb :: ys), innerJoinSetNext]
  · simp [innerJoinSetLoop, hc]
  · cases ys with
    | nil => simp [innerJoinSetLoop, hc, innerJoinSet_nil_right]
    | cons k ys₀ =>
      rw [show innerJoinSetLoop (xs.length + (k :: ys₀).length + 1) ka kb
            xs (k :: ys₀) =
          innerJoinSetLoop (xs.length + ys₀.length + 1) ka k xs ys₀ by
        simp [innerJoinSetLoop, hc]]
      simp [innerJoinSet_eq_next (ka :: xs) (k :: ys₀), innerJoinSetNext]

end SetLemmas

section MapSetLemmas

variable [Ord K]

/-! ## Fuel lemmas and merge equations for the set-filtered map join -/

theorem innerJoinMapSetLoop_length (fuel : Nat) (ks km : K) (d : A)
    (ms : List (K × A)) (ss : List K) :
    (innerJoinMapSetLoop fuel ks km d ms ss).2.1.length ≤ ms.length ∧
    (innerJoinMapSetLoop fuel ks km d ms ss).2.2.length ≤ ss.length := by
  induction fuel, ks, km, d, ms, ss using innerJoinMapSetLoop.induct <;>
    simp_all [innerJoinMapSetLoop] <;> omega

theorem innerJoinMapSetNext_yield_length {ms : List (K × A)} {ss : List K}
    {o : K × A} {ms' : List (K × A)} {ss' : List K}
    (h : innerJoinMapSetNext ms ss = (some o, (ms', ss'))) :
    ms'.length < ms.length ∧ ss'.length < ss.length := by
  cases ss with
  | nil => simp [innerJoinMapSetNext] at h
  | cons ks ss₀ =>
    cases ms with
    | nil => simp [innerJoinMapSetNext] at h
    | cons p ms₀ =>
      obtain ⟨km, d⟩ := p
      simp only [innerJoinMapSetNext] at h
      have hl := innerJoinMapSetLoop_length (ss₀.length + ms₀.length + 1) ks km d ms₀ ss₀
      rw [h] at hl
      simp only [List.length_cons]
      simp at hl
      omega

theorem innerJoinMapSetDrive_congr (n : Nat) :
    ∀ (m : Nat) (ms : List (K × A)) (ss : List K),
      ms.length + ss.length ≤ n → ms.length + ss.length ≤ m →
      innerJoinMapSetDrive n ms ss = innerJoinMapSetDrive m ms ss := by
  induction n with
  | zero =>
    intro m ms ss hn _
    have hx : ms = [] := List.length_eq_zero.1 (by omega)
    have hy : ss = [] := List.length_eq_zero.1 (by omega)
    subst hx; subst hy
    cases m with
    | zero => rfl
    | succ m => simp [innerJoinMapSetDrive, innerJoinMapSetNext]
  | succ n ih =>
    intro m ms ss hn hm
    cases m with
    | zero =>
      have hx : ms = [] := List.length_eq_zero.1 (by omega)
      have hy : ss = [] := List.length_eq_zero.1 (by omega)
      subst hx; subst hy
      simp [innerJoinMapSetDrive, innerJoinMapSetNext]
    | succ m =>
      simp only [innerJoinMapSetDrive]
      rcases hnext : innerJoinMapSetNext ms ss with ⟨o, ms', ss'⟩
      cases o with
      | none => simp
      | some o =>
        have hlt := innerJoinMapSetNext_yield_length hnext
        simp only []
        rw [ih m ms' ss' (by omega) (by omega)]

/-- Canonical iterator unfolding for the set-filtered map join. -/
theorem innerJoinMapSet_eq_next (ms : List (K × A)) (ss : List K) :
    innerJoinMapSet ms ss =
      match innerJoinMapSetNext ms ss with
      | (none, _) => []
      | (some o, (X, Y)) => o :: innerJoinMapSet X Y := by
  cases ss with
  | nil =>
    cases ms with
    | nil => rfl
    | cons p ms₀ => simp [innerJoinMapSet, innerJoinMapSetDrive, innerJoinMapSetNext]
  | cons ks ss₀ =>
    cases ms with
    | nil => simp [innerJoinMapSet, innerJoinMapSetDrive, innerJoinMapSetNext]
    | cons p ms₀ =>
      obtain ⟨km, d⟩ := p
      show innerJoinMapSetDrive ((ms₀.length + 1) + (ss₀.length + 1)) _ _ = _
      rw [show (ms₀.length + 1) + (ss₀.length + 1) = (ms₀.length + ss₀.length + 1) + 1
        by omega]
      simp only [innerJoinMapSetDrive]
      rcases hnext : innerJoinMapSetNext ((km, d) :: ms₀) (ks :: ss₀) with ⟨o, X, Y⟩
      cases o with
      | none => simp
      | some o =>
        have hlt := innerJoinMapSetNext_yield_length hnext
        simp only [List.length_cons] at hlt
        show o :: innerJoinMapSetDrive (ms₀.length + ss₀.length + 1) X Y =
          o :: innerJoinMapSet X Y
        rw [innerJoinMapSetDrive_congr (ms₀.length + ss₀.length + 1) (X.length + Y.length)
          X Y (by omega) (by omega)]
        rfl

theorem innerJoinMapSet_nil_map (ss : List K) :
    innerJoinMapSet ([] : List (K × A)) ss = [] := by
  rw [innerJoinMapSet_eq_next]
  cases ss <;> simp [innerJoinMapSetNext]

theorem innerJoinMapSet_nil_set (ms : List (K × A)) :
    innerJoinMapSet ms ([] : List K) = [] := by
  rw [innerJoinMapSet_eq_next]
  simp [innerJoinMapSetNext]

theorem innerJoinMapSet_cons_cons (km : K) (d : A) (ks : K)
    (ms : List (K × A)) (ss : List K) :
    innerJoinMapSet ((km, d) :: ms) (ks :: ss) =
      match compare ks km with
      | .lt => innerJoinMapSet ((km, d) :: ms) ss
      | .eq => (ks, d) :: innerJoinMapSet ms ss
      | .gt => innerJoinMapSet ms (ks :: ss) := by
  conv_lhs => rw [innerJoinMapSet_eq_next]
  simp only [innerJoinMapSetNext]
  rcases hc : compare ks km with _ | _ | _
  · -- Less: advance the set side
    cases ss with
    | nil => simp [innerJoinMapSetLoop, hc, innerJoinMapSet_nil_set]
    | cons k ss₀ =>
      rw [show innerJoinMapSetLoop ((k :: ss₀).length + ms.length + 1) ks km d
            ms (k :: ss₀) =
          innerJoinMapSetLoop (ss₀.length + ms.length + 1) k km d ms ss₀ by
        simp [innerJoinMapSetLoop, hc, Nat.add_right_comm]]
      simp [innerJoinMapSet_eq_next ((km, d) :: ms) (k :: ss₀), innerJoinMapSetNext]
  · -- Equal: yield `(key_set, data)`
    simp [innerJoinMapSetLoop, hc]
  · -- Greater: advance the map side
    cases ms with
    | nil => simp [innerJoinMapSetLoop, hc, innerJoinMapSet_nil_map]
    | cons p ms₀ =>
      obtain ⟨k, d'⟩ := p
      rw [show innerJoinMapSetLoop (ss.length + ((k, d') :: ms₀).length + 1) ks km d
            ((k, d') :: ms₀) ss =
          innerJoinMapSetLoop (ss.length + ms₀.length + 1) ks k d' ms₀ ss by
        simp [innerJoinMapSetLoop, hc]]
      simp [innerJoinMapSet_eq_next ((k, d') :: ms₀) (ks :: ss), innerJoinMapSetNext]

end MapSetLemmas

section OuterLemmas

variable [Ord K]

/-! ## Lemmas and merge equations for the outer join -/

/-- Panic-freedom of `OuterJoinIterator::next`: after a successful peek the
matching consuming `next()` always finds an element, so the `expect` never
fires. -/
theorem outerJoinNextE_isSome (xs : List (K × A)) (ys : List (K × B)) :
    (outerJoinNextE xs ys).isSome := by
  cases xs with
  | nil =>
    cases ys with
    | nil => simp [outerJoinNextE]
    | cons q ys₀ => simp [outerJoinNextE]
  | cons p xs₀ =>
    cases ys with
    | nil => simp [outerJoinNextE]
    | cons q ys₀ =>
      obtain ⟨ka, a⟩ := p
      obtain ⟨kb, b⟩ := q
      rcases hc : compare kb ka with _ | _ | _ <;> simp [outerJoinNextE, hc]

/-- A pull of the outer join consumes at most one element from each input. -/
theorem outerJoinNextE_consume {xs : List (K × A)} {ys : List (K × B)}
    {o : K × (Option A × Option B)} {xs' : List (K × A)} {ys' : List (K × B)}
    (h : outerJoinNextE xs ys = some (some (o, (xs', ys')))) :
    (xs' = xs ∨ xs' = xs.tail) ∧ (ys' = ys ∨ ys' = ys.tail) := by
  cases xs with
  | nil =>
    cases ys with
    | nil => simp [outerJoinNextE] at h
    | cons q ys₀ =>
      simp [outerJoinNextE] at h
      obtain ⟨-, h2, h3⟩ := h
      exact ⟨Or.inl h2, Or.inr (by simp [← h3])⟩
  | cons p xs₀ =>
    obtain ⟨ka, a⟩ := p
    cases ys with
    | nil =>
      simp [outerJoinNextE] at h
      obtain ⟨-, h2, h3⟩ := h
      exact ⟨Or.inr (by simp [← h2]), Or.inl h3⟩
    | cons q ys₀ =>
      obtain ⟨kb, b⟩ := q
      rcases hc : compare kb ka with _ | _ | _ <;>
        simp [outerJoinNextE, hc] at h <;>
        obtain ⟨-, h2, h3⟩ := h
      · exact ⟨Or.inl h2.symm, Or.inr (by simp [← h3])⟩
      · exact ⟨Or.inr (by simp [← h2]), Or.inr (by simp [← h3])⟩
      · exact ⟨Or.inr (by simp [← h2]), Or.inl h3.symm⟩

theorem outerJoinNext_yield_length {xs : List (K × A)} {ys : List (K × B)}
    {o : K × (Option A × Option B)} {xs' : List (K × A)} {ys' : List (K × B)}
    (h : outerJoinNext xs ys = some (o, (xs', ys'))) :
    xs'.length + ys'.length < xs.length + ys.length := by
  cases xs with
  | nil =>
    cases ys with
    | nil => simp [outerJoinNext, outerJoinNextE] at h
    | cons q ys₀ =>
      simp [outerJoinNext, outerJoinNextE] at h
      obtain ⟨-, h2, h3⟩ := h
      simp [← h2, ← h3]
  | cons p xs₀ =>
    obtain ⟨ka, a⟩ := p
    cases ys with
    | nil =>
      simp [outerJoinNext, outerJoinNextE] at h
      obtain ⟨-, h2, h3⟩ := h
      simp [← h2, ← h3]
    | cons q ys₀ =>
      obtain ⟨kb, b⟩ := q
      rcases hc : compare kb ka with _ | _ | _ <;>
        simp [outerJoinNext, outerJoinNextE, hc] at h <;>
        (obtain ⟨-, h2, h3⟩ := h; simp [← h2, ← h3]; try omega)

/-- The outer join yields nothing only when both inputs are exhausted. -/
theorem outerJoinNext_eq_none {xs : List (K × A)} {ys : List (K × B)}
    (h : outerJoinNext xs ys = none) : xs = [] ∧ ys = [] := by
  cases xs with
  | nil =>
    cases ys with
    | nil => exact ⟨rfl, rfl⟩
    | cons q ys₀ => simp [outerJoinNext, outerJoinNextE] at h
  | cons p xs₀ =>
    obtain ⟨ka, a⟩ := p
    cases ys with
    | nil => simp [outerJoinNext, outerJoinNextE] at h
    | cons q ys₀ =>
      obtain ⟨kb, b⟩ := q
      rcases hc : compare kb ka with _ | _ | _ <;>
        simp [outerJoinNext, outerJoinNextE, hc] at h

theorem outerJoinDrive_congr (n : Nat) :
    ∀ (m : Nat) (xs : List (K × A)) (ys : List (K × B)),
      xs.length + ys.length ≤ n → xs.length + ys.length ≤ m →
      outerJoinDrive n xs ys = outerJoinDrive m xs ys := by
  induction n with
  | zero =>
    intro m xs ys hn _
    have hx : xs = [] := List.length_eq_zero.1 (by omega)
    have hy : ys = [] := List.length_eq_zero.1 (by omega)
    subst hx; subst hy
    cases m with
    | zero => rfl
    | succ m => simp [outerJoinDrive, outerJoinNext, outerJoinNextE]
  | succ n ih =>
    intro m xs ys hn hm
    cases m with
    | zero =>
      have hx : xs = [] := List.length_eq_zero.1 (by omega)
      have hy : ys = [] := List.length_eq_zero.1 (by omega)
      subst hx; subst hy
      simp [outerJoinDrive, outerJoinNext, outerJoinNextE]
    | succ m =>
      simp only [outerJoinDrive]
      rcases hnext : outerJoinNext xs ys with _ | ⟨o, xs', ys'⟩
      · simp
      · have hlt := outerJoinNext_yield_length hnext
        simp only []
        rw [ih m xs' ys' (by omega) (by omega)]

/-- Canonical iterator unfolding for the outer join. -/
theorem outerJoin_eq_next (xs : List (K × A)) (ys : List (K × B)) :
    outerJoin xs ys =
      match outerJoinNext xs ys with
      | none => []
      | some (o, (X, Y)) => o :: outerJoin X Y := by
  cases xs with
  | nil =>
    cases ys with
    | nil => rfl
    | cons q ys₀ =>
      obtain ⟨kb, b⟩ := q
      show outerJoinDrive (0 + (ys₀.length + 1)) _ _ = _
      rw [show 0 + (ys₀.length + 1) = (0 + ys₀.length) + 1 by omega]
      simp only [outerJoinDrive]
      simp [outerJoinNext, outerJoinNextE, outerJoin]
  | cons p xs₀ =>
    obtain ⟨ka, a⟩ := p
    cases ys with
    | nil =>
      show outerJoinDrive ((xs₀.length + 1) + 0) _ _ = _
      rw [show (xs₀.length + 1) + 0 = (xs₀.length + 0) + 1 by omega]
      simp only [outerJoinDrive]
      simp [outerJoinNext, outerJoinNextE, outerJoin]
    | cons q ys₀ =>
      obtain ⟨kb, b⟩ := q
      show outerJoinDrive ((xs₀.length + 1) + (ys₀.length + 1)) _ _ = _
      rw [show (xs₀.length + 1) + (ys₀.length + 1) = (xs₀.length + ys₀.length + 1) + 1
        by omega]
      simp only [outerJoinDrive]
      rcases hnext : outerJoinNext ((ka, a) :: xs₀) ((kb, b) :: ys₀) with _ | ⟨o, X, Y⟩
      · simp
      · have hlt := outerJoinNext_yield_length hnext
        simp only [List.length_cons] at hlt
        show o :: outerJoinDrive (xs₀.length + ys₀.length + 1) X Y =
          o :: outerJoin X Y
        rw [outerJoinDrive_congr (xs₀.length + ys₀.length + 1) (X.length + Y.length)
          X Y (by omega) (by omega)]
        rfl

theorem outerJoin_nil_nil : outerJoin ([] : List (K × A)) ([] : List (K × B)) = [] := rfl

theorem outerJoin_nil_cons (kb : K) (b : B) (ys : List (K × B)) :
    outerJoin ([] : List (K × A)) ((kb, b) :: ys) =
      (kb, (none, some b)) :: outerJoin [] ys := by
  rw [outerJoin_eq_next]
  simp [outerJoinNext, outerJoinNextE]

theorem outerJoin_cons_nil (ka : K) (a : A) (xs : List (K × A)) :
    outerJoin ((ka, a) :: xs) ([] : List (K × B)) =
      (ka, (some a, none)) :: outerJoin xs [] := by
  rw [outerJoin_eq_next]
  simp [outerJoinNext, outerJoinNextE]

theorem outerJoin_cons_cons (ka : K) (a : A) (kb : K) (b : B)
    (xs : List (K × A)) (ys : List (K × B)) :
    outerJoin ((ka, a) :: xs) ((kb, b) :: ys) =
      match compare kb ka with
      | .eq => (ka, (some a, some b)) :: outerJoin xs ys
      | .lt => (kb, (none, some b)) :: outerJoin ((ka, a) :: xs) ys
      | .gt => (ka, (some a, none)) :: outerJoin xs ((kb, b) :: ys) := by
  rw [outerJoin_eq_next]
  rcases hc : compare kb ka with _ | _ | _ <;>
    simp [outerJoinNext, outerJoinNextE, hc]

end OuterLemmas

section CaseEquations

variable [Ord K]

/-! ## The merge equations specialised to each comparison outcome -/

theorem innerJoinMap_cons_lt {ka kb : K} (hc : compare ka kb = .lt)
    (da : A) (db : B) (xs : List (K × A)) (ys : List (K × B)) :
    innerJoinMap ((ka, da) :: xs) ((kb, db) :: ys) = innerJoinMap xs ((kb, db) :: ys) := by
  rw [innerJoinMap_cons_cons, hc]

theorem innerJoinMap_cons_eq {ka kb : K} (hc : compare ka kb = .eq)
    (da : A) (db : B) (xs : List (K × A)) (ys : List (K × B)) :
    innerJoinMap ((ka, da) :: xs) ((kb, db) :: ys) =
      (ka, (da, db)) :: innerJoinMap xs ys := by
  rw [innerJoinMap_cons_cons, hc]

theorem innerJoinMap_cons_gt {ka kb : K} (hc : compare ka kb = .gt)
    (da : A) (db : B) (xs : List (K × A)) (ys : List (K × B)) :
    innerJoinMap ((ka, da) :: xs) ((kb, db) :: ys) = innerJoinMap ((ka, da) :: xs) ys := by
  rw [innerJoinMap_cons_cons, hc]

theorem innerJoinSet_cons_lt {ka kb : K} (hc : compare ka kb = .lt) (xs ys : List K) :
    innerJoinSet (ka :: xs) (kb :: ys) = innerJoinSet xs (kb :: ys) := by
  rw [innerJoinSet_cons_cons, hc]

theorem innerJoinSet_cons_eq {ka kb : K} (hc : compare ka kb = .eq) (xs ys : List K) :
    innerJoinSet (ka :: xs) (kb :: ys) = ka :: innerJoinSet xs ys := by
  rw [innerJoinSet_cons_cons, hc]

theorem innerJoinSet_cons_gt {ka kb : K} (hc : compare ka kb = .gt) (xs ys : List K) :
    innerJoinSet (ka :: xs) (kb :: ys) = innerJoinSet (ka :: xs) ys := by
  rw [innerJoinSet_cons_cons, hc]

theorem innerJoinMapSet_cons_lt {ks km : K} (hc : compare ks km = .lt)
    (d : A) (ms : List (K × A)) (ss : List K) :
    innerJoinMapSet ((km, d) :: ms) (ks :: ss) = innerJoinMapSet ((km, d) :: ms) ss := by
  rw [innerJoinMapSet_cons_cons, hc]

theorem innerJoinMapSet_cons_eq {ks km : K} (hc : compare ks km = .eq)
    (d : A) (ms : List (K × A)) (ss : List K) :
    innerJoinMapSet ((km, d) :: ms) (ks :: ss) = (ks, d) :: innerJoinMapSet ms ss := by
  rw [innerJoinMapSet_cons_cons, hc]

theorem innerJoinMapSet_cons_gt {ks km : K} (hc : compare ks km = .gt)
    (d : A) (ms : List (K × A)) (ss : List K) :
    innerJoinMapSet ((km, d) :: ms) (ks :: ss) = innerJoinMapSet ms (ks :: ss) := by
  rw [innerJoinMapSet_cons_cons, hc]

theorem outerJoin_cons_eq {ka kb : K} (hc : compare kb ka = .eq)
    (a : A) (b : B) (xs : List (K × A)) (ys : List (K × B)) :
    outerJoin ((ka, a) :: xs) ((kb, b) :: ys) =
      (ka, (some a, some b)) :: outerJoin xs ys := by
  rw [outerJoin_cons_cons, hc]

theorem outerJoin_cons_lt {ka kb : K} (hc : compare kb ka = .lt)
    (a : A) (b : B) (xs : List (K × A)) (ys : List (K × B)) :
    outerJoin ((ka, a) :: xs) ((kb, b) :: ys) =
      (kb, (none, some b)) :: outerJoin ((ka, a) :: xs) ys := by
  rw [outerJoin_cons_cons, hc]

theorem outerJoin_cons_gt {ka kb : K} (hc : compare kb ka = .gt)
    (a : A) (b : B) (xs : List (K × A)) (ys : List (K × B)) :
    outerJoin ((ka, a) :: xs) ((kb, b) :: ys) =
      (ka, (some a, none)) :: outerJoin xs ((kb, b) :: ys) := by
  rw [outerJoin_cons_cons, hc]

end CaseEquations

section Masters

variable [LinearOrder K]

/-! ## Master correctness lemmas (inputs assumed strictly increasing)

Each master lemma characterises the pairs emitted by a join and shows the
emitted key sequence is strictly increasing; everything the claims need
follows from these. -/

theorem innerJoinMap_spec_aux (n : Nat) :
    ∀ (xs : List (K × A)) (ys : List (K × B)),
      xs.length + ys.length ≤ n →
      List.Sorted (· < ·) (mapKeys xs) → List.Sorted (· < ·) (mapKeys ys) →
      (∀ (k : K) (v : A × B),
          ((k, v) ∈ innerJoinMap xs ys ↔
            ∃ a b, v = (a, b) ∧ alookup xs k = some a ∧ alookup ys k = some b)) ∧
      List.Sorted (· < ·) (mapKeys (innerJoinMap xs ys)) := by
  induction n with
  | zero =>
    intro xs ys hlen _ _
    have hx : xs = [] := List.length_eq_zero.1 (by omega)
    have hy : ys = [] := List.length_eq_zero.1 (by omega)
    subst hx; subst hy
    refine ⟨fun k v => ?_, ?_⟩
    · simp [innerJoinMap_nil_left, alookup]
    · simp [innerJoinMap_nil_left, mapKeys]
  | succ n ih =>
    intro xs ys hlen hsx hsy
    cases xs with
    | nil =>
      refine ⟨fun k v => ?_, ?_⟩
      · simp [innerJoinMap_nil_left, alookup]
      · simp [innerJoinMap_nil_left, mapKeys]
    | cons p xs₀ =>
      obtain ⟨ka, da⟩ := p
      cases ys with
      | nil =>
        refine ⟨fun k v => ?_, ?_⟩
        · simp [innerJoinMap_nil_right, alookup]
        · simp [innerJoinMap_nil_right, mapKeys]
      | cons q ys₀ =>
        obtain ⟨kb, db⟩ := q
        rw [mapKeys_cons, List.sorted_cons] at hsx hsy
        obtain ⟨hka, hsx₀⟩ := hsx
        obtain ⟨hkb, hsy₀⟩ := hsy
        simp only [List.length_cons] at hlen
        rcases hc : compare ka kb with _ | _ | _
        · -- Less: `ka < kb`, drop the head of `a`
          have hab : ka < kb := compare_lt_iff_lt.1 hc
          rw [innerJoinMap_cons_lt hc]
          obtain ⟨ihmem, ihsort⟩ :=
            ih xs₀ ((kb, db) :: ys₀) (by simp only [List.length_cons]; omega)
              hsx₀ (by rw [mapKeys_cons, List.sorted_cons]; exact ⟨hkb, hsy₀⟩)
          refine ⟨fun k v => ?_, ihsort⟩
          rw [ihmem k v]
          by_cases hk : k = ka
          · subst hk
            have h1 : alookup xs₀ k = none :=
              alookup_eq_none (fun hm => lt_irrefl k (hka k hm))
            have h2 : alookup ((kb, db) :: ys₀) k = none := by
              rw [alookup_cons, if_neg hab.ne]
              exact alookup_eq_none (fun hm => lt_asymm hab (hkb k hm))
            simp [h1, h2, alookup_cons]
          · simp [alookup_cons, hk]
        · -- Equal: emit the pair and drop both heads
          have hab : ka = kb := compare_eq_iff_eq.1 hc
          subst hab
          rw [innerJoinMap_cons_eq hc]
          obtain ⟨ihmem, ihsort⟩ := ih xs₀ ys₀ (by omega) hsx₀ hsy₀
          constructor
          · intro k v
            rw [List.mem_cons, ihmem k v]
            by_cases hk : k = ka
            · subst hk
              have h1 : alookup xs₀ k = none :=
                alookup_eq_none (fun hm => lt_irrefl k (hka k hm))
              have h2 : alookup ys₀ k = none :=
                alookup_eq_none (fun hm => lt_irrefl k (hkb k hm))
              simp [h1, h2, alookup_cons, Prod.ext_iff]
            · simp [alookup_cons, hk, Prod.ext_iff]
          · rw [mapKeys_cons, List.sorted_cons]
            refine ⟨fun x hx => ?_, ihsort⟩
            obtain ⟨v, hv⟩ := mem_mapKeys.1 hx
            obtain ⟨a, b, -, ha, -⟩ := (ihmem x v).1 hv
            exact hka x (alookup_isSome_iff.1 (by simp [ha]))
        · -- Greater: `kb < ka`, drop the head of `b`
          have hab : kb < ka := compare_gt_iff_gt.1 hc
          rw [innerJoinMap_cons_gt hc]
          obtain ⟨ihmem, ihsort⟩ :=
            ih ((ka, da) :: xs₀) ys₀ (by simp only [List.length_cons]; omega)
              (by rw [mapKeys_cons, List.sorted_cons]; exact ⟨hka, hsx₀⟩) hsy₀
          refine ⟨fun k v => ?_, ihsort⟩
          rw [ihmem k v]
          by_cases hk : k = kb
          · subst hk
            have h2 : alookup ys₀ k = none :=
              alookup_eq_none (fun hm => lt_irrefl k (hkb k hm))
            have h1 : alookup ((ka, da) :: xs₀) k = none := by
              rw [alookup_cons, if_neg hab.ne]
              exact alookup_eq_none (fun hm => lt_asymm hab (hka k hm))
            simp [h1, h2, alookup_cons]
          · simp [alookup_cons, hk]

theorem innerJoinSet_spec_aux (n : Nat) :
    ∀ (xs ys : List K),
      xs.length + ys.length ≤ n →
      List.Sorted (· < ·) xs → List.Sorted (· < ·) ys →
      (∀ k : K, (k ∈ innerJoinSet xs ys ↔ k ∈ xs ∧ k ∈ ys)) ∧
      List.Sorted (· < ·) (innerJoinSet xs ys) := by
  induction n with
  | zero =>
    intro xs ys hlen _ _
    have hx : xs = [] := List.length_eq_zero.1 (by omega)
    have hy : ys = [] := List.length_eq_zero.1 (by omega)
    subst hx; subst hy
    simp [innerJoinSet_nil_left]
  | succ n ih =>
    intro xs ys hlen hsx hsy
    cases xs with
    | nil => simp [innerJoinSet_nil_left]
    | cons ka xs₀ =>
      cases ys with
      | nil => simp [innerJoinSet_nil_right]
      | cons kb ys₀ =>
        rw [List.sorted_cons] at hsx hsy
        obtain ⟨hka, hsx₀⟩ := hsx
        obtain ⟨hkb, hsy₀⟩ := hsy
        simp only [List.length_cons] at hlen
        rcases hc : compare ka kb with _ | _ | _
        · -- Less: `ka < kb`, drop the head of `a`
          have hab : ka < kb := compare_lt_iff_lt.1 hc
          rw [innerJoinSet_cons_lt hc]
          obtain ⟨ihmem, ihsort⟩ :=
            ih xs₀ (kb :: ys₀) (by simp only [List.length_cons]; omega)
              hsx₀ (List.sorted_cons.2 ⟨hkb, hsy₀⟩)
          refine ⟨fun k => ?_, ihsort⟩
          rw [ihmem k]
          have hno : ka ∉ kb :: ys₀ := by
            intro hm
            rcases List.mem_cons.1 hm with h | h
            · exact hab.ne h
            · exact lt_asymm hab (hkb _ h)
          constructor
          · exact fun h => ⟨List.mem_cons_of_mem _ h.1, h.2⟩
          · rintro ⟨h1, h2⟩
            rcases List.mem_cons.1 h1 with rfl | h1
            · exact absurd h2 hno
            · exact ⟨h1, h2⟩
        · -- Equal: emit `key_a` and drop both heads
          have hab : ka = kb := compare_eq_iff_eq.1 hc
          subst hab
          rw [innerJoinSet_cons_eq hc]
          obtain ⟨ihmem, ihsort⟩ := ih xs₀ ys₀ (by omega) hsx₀ hsy₀
          constructor
          · intro k
            rw [List.mem_cons, ihmem k]
            by_cases hk : k = ka
            · subst hk; simp
            · simp [List.mem_cons, hk]
          · exact List.sorted_cons.2
              ⟨fun x hx => hka x ((ihmem x).1 hx).1, ihsort⟩
        · -- Greater: `kb < ka`, drop the head of `b`
          have hab : kb < ka := compare_gt_iff_gt.1 hc
          rw [innerJoinSet_cons_gt hc]
          obtain ⟨ihmem, ihsort⟩ :=
            ih (ka :: xs₀) ys₀ (by simp only [List.length_cons]; omega)
              (List.sorted_cons.2 ⟨hka, hsx₀⟩) hsy₀
          refine ⟨fun k => ?_, ihsort⟩
          rw [ihmem k]
          have hno : kb ∉ ka :: xs₀ := by
            intro hm
            rcases List.mem_cons.1 hm with h | h
            · exact hab.ne h
            · exact lt_asymm hab (hka _ h)
          constructor
          · exact fun h => ⟨h.1, List.mem_cons_of_mem _ h.2⟩
          · rintro ⟨h1, h2⟩
            rcases List.mem_cons.1 h2 with rfl | h2
            · exact absurd h1 hno
            · exact ⟨h1, h2⟩

theorem innerJoinMapSet_spec_aux (n : Nat) :
    ∀ (ms : List (K × A)) (ss : List K),
      ms.length + ss.length ≤ n →
      List.Sorted (· < ·) (mapKeys ms) → List.Sorted (· < ·) ss →
      (∀ (k : K) (v : A),
          ((k, v) ∈ innerJoinMapSet ms ss ↔ k ∈ ss ∧ alookup ms k = some v)) ∧
      List.Sorted (· < ·) (mapKeys (innerJoinMapSet ms ss)) := by
  induction n with
  | zero =>
    intro ms ss hlen _ _
    have hx : ms = [] := List.length_eq_zero.1 (by omega)
    have hy : ss = [] := List.length_eq_zero.1 (by omega)
    subst hx; subst hy
    simp [innerJoinMapSet_nil_set, mapKeys]
  | succ n ih =>
    intro ms ss hlen hsm hss
    cases ss with
    | nil => simp [innerJoinMapSet_nil_set, mapKeys]
    | cons ks ss₀ =>
      cases ms with
      | nil => simp [innerJoinMapSet_nil_map, mapKeys, alookup]
      | cons p ms₀ =>
        obtain ⟨km, d⟩ := p
        rw [mapKeys_cons, List.sorted_cons] at hsm
        rw [List.sorted_cons] at hss
        obtain ⟨hkm, hsm₀⟩ := hsm
        obtain ⟨hks, hss₀⟩ := hss
        simp only [List.length_cons] at hlen
        rcases hc : compare ks km with _ | _ | _
        · -- Less: `key_set < key_map`, advance the set
          have hab : ks < km := compare_lt_iff_lt.1 hc
          rw [innerJoinMapSet_cons_lt hc]
          obtain ⟨ihmem, ihsort⟩ :=
            ih ((km, d) :: ms₀) ss₀ (by simp only [List.length_cons]; omega)
              (by rw [mapKeys_cons, List.sorted_cons]; exact ⟨hkm, hsm₀⟩) hss₀
          refine ⟨fun k v => ?_, ihsort⟩
          rw [ihmem k v]
          by_cases hk : k = ks
          · subst hk
            have h1 : alookup ((km, d) :: ms₀) k = none := by
              rw [alookup_cons, if_neg hab.ne]
              exact alookup_eq_none (fun hm => lt_asymm hab (hkm k hm))
            have h2 : k ∉ ss₀ := fun hm => lt_irrefl k (hks k hm)
            simp [h1, h2]
          · simp [List.mem_cons, hk]
        · -- Equal: emit `(key_set, data)` and drop both heads
          have hab : ks = km := compare_eq_iff_eq.1 hc
          subst hab
          rw [innerJoinMapSet_cons_eq hc]
          obtain ⟨ihmem, ihsort⟩ := ih ms₀ ss₀ (by omega) hsm₀ hss₀
          constructor
          · intro k v
            rw [List.mem_cons, ihmem k v]
            by_cases hk : k = ks
            · subst hk
              have h1 : alookup ms₀ k = none :=
                alookup_eq_none (fun hm => lt_irrefl k (hkm k hm))
              have h2 : k ∉ ss₀ := fun hm => lt_irrefl k (hks k hm)
              simp [h1, h2, alookup_cons, Prod.ext_iff, eq_comm]
            · simp [alookup_cons, hk, Prod.ext_iff]
          · rw [mapKeys_cons, List.sorted_cons]
            refine ⟨fun x hx => ?_, ihsort⟩
            obtain ⟨v, hv⟩ := mem_mapKeys.1 hx
            obtain ⟨-, ha⟩ := (ihmem x v).1 hv
            exact hkm x (alookup_isSome_iff.1 (by simp [ha]))
        · -- Greater: `key_set > key_map`, advance the map
          have hab : km < ks := compare_gt_iff_gt.1 hc
          rw [innerJoinMapSet_cons_gt hc]
          obtain ⟨ihmem, ihsort⟩ :=
            ih ms₀ (ks :: ss₀) (by simp only [List.length_cons]; omega)
              hsm₀ (List.sorted_cons.2 ⟨hks, hss₀⟩)
          refine ⟨fun k v => ?_, ihsort⟩
          rw [ihmem k v]
          by_cases hk : k = km
          · subst hk
            have h1 : alookup ms₀ k = none :=
              alookup_eq_none (fun hm => lt_irrefl k (hkm k hm))
            have h2 : k ∉ ks :: ss₀ := by
              intro hm
              rcases List.mem_cons.1 hm with h | h
              · exact hab.ne h
              · exact lt_asymm hab (hks k h)
            simp [h1, h2]
          · simp [alookup_cons, hk]

theorem outerJoin_spec_aux (n : Nat) :
    ∀ (xs : List (K × A)) (ys : List (K × B)),
      xs.length + ys.length ≤ n →
      List.Sorted (· < ·) (mapKeys xs) → List.Sorted (· < ·) (mapKeys ys) →
      (∀ (k : K) (w : Option A × Option B),
          ((k, w) ∈ outerJoin xs ys ↔
            (k ∈ mapKeys xs ∨ k ∈ mapKeys ys) ∧ w = (alookup xs k, alookup ys k))) ∧
      List.Sorted (· < ·) (mapKeys (outerJoin xs ys)) := by
  induction n with
  | zero =>
    intro xs ys hlen _ _
    have hx : xs = [] := List.length_eq_zero.1 (by omega)
    have hy : ys = [] := List.length_eq_zero.1 (by omega)
    subst hx; subst hy
    simp [outerJoin_nil_nil, mapKeys]
  | succ n ih =>
    intro xs ys hlen hsx hsy
    cases xs with
    | nil =>
      cases ys with
      | nil => simp [outerJoin_nil_nil, mapKeys]
      | cons q ys₀ =>
        obtain ⟨kb, b⟩ := q
        rw [mapKeys_cons, List.sorted_cons] at hsy
        obtain ⟨hkb, hsy₀⟩ := hsy
        simp only [List.length_cons] at hlen
        rw [outerJoin_nil_cons]
        obtain ⟨ihmem, ihsort⟩ := ih [] ys₀ (by simp; omega) (by simp [mapKeys]) hsy₀
        constructor
        · intro k w
          rw [List.mem_cons, ihmem k w]
          by_cases hk : k = kb
          · subst hk
            have h2 : alookup ys₀ k = none :=
              alookup_eq_none (fun hm => lt_irrefl k (hkb k hm))
            have h3 : k ∉ mapKeys ys₀ := fun hm => lt_irrefl k (hkb k hm)
            have h4 : ∀ x : B, (k, x) ∉ ys₀ := fun x hx => h3 (mem_mapKeys.2 ⟨x, hx⟩)
            simp [h2, h4, alookup_cons, alookup, mapKeys, mapKeys_cons, Prod.ext_iff,
              eq_comm]
          · simp [alookup_cons, alookup, hk, mapKeys, mapKeys_cons]
        · rw [mapKeys_cons, List.sorted_cons]
          refine ⟨fun x hx => ?_, ihsort⟩
          obtain ⟨w, hw⟩ := mem_mapKeys.1 hx
          obtain ⟨hu, -⟩ := (ihmem x w).1 hw
          rcases hu with hu | hu
          · simp [mapKeys] at hu
          · exact hkb x hu
    | cons p xs₀ =>
      obtain ⟨ka, a⟩ := p
      cases ys with
      | nil =>
        rw [mapKeys_cons, List.sorted_cons] at hsx
        obtain ⟨hka, hsx₀⟩ := hsx
        simp only [List.length_cons] at hlen
        rw [outerJoin_cons_nil]
        obtain ⟨ihmem, ihsort⟩ := ih xs₀ [] (by simp; omega) hsx₀ (by simp [mapKeys])
        constructor
        · intro k w
          rw [List.mem_cons, ihmem k w]
          by_cases hk : k = ka
          · subst hk
            have h2 : alookup xs₀ k = none :=
              alookup_eq_none (fun hm => lt_irrefl k (hka k hm))
            have h3 : k ∉ mapKeys xs₀ := fun hm => lt_irrefl k (hka k hm)
            have h4 : ∀ x : A, (k, x) ∉ xs₀ := fun x hx => h3 (mem_mapKeys.2 ⟨x, hx⟩)
            simp [h2, h4, alookup_cons, alookup, mapKeys, mapKeys_cons, Prod.ext_iff,
              eq_comm]
          · simp [alookup_cons, alookup, hk, mapKeys, mapKeys_cons]
        · rw [mapKeys_cons, List.sorted_cons]
          refine ⟨fun x hx => ?_, ihsort⟩
          obtain ⟨w, hw⟩ := mem_mapKeys.1 hx
          obtain ⟨hu, -⟩ := (ihmem x w).1 hw
          rcases hu with hu | hu
          · exact hka x hu
          · simp [mapKeys] at hu
      | cons q ys₀ =>
        obtain ⟨kb, b⟩ := q
        rw [mapKeys_cons, List.sorted_cons] at hsx hsy
        obtain ⟨hka, hsx₀⟩ := hsx
        obtain ⟨hkb, hsy₀⟩ := hsy
        simp only [List.length_cons] at hlen
        rcases hc : compare kb ka with _ | _ | _
        · -- `kb < ka`: consume only the right side
          have hab : kb < ka := compare_lt_iff_lt.1 hc
          rw [outerJoin_cons_lt hc]
          obtain ⟨ihmem, ihsort⟩ :=
            ih ((ka, a) :: xs₀) ys₀ (by simp only [List.length_cons]; omega)
              (by rw [mapKeys_cons, List.sorted_cons]; exact ⟨hka, hsx₀⟩) hsy₀
          have hnl : kb ∉ mapKeys ((ka, a) :: xs₀) := by
            rw [mapKeys_cons]
            intro hm
            rcases List.mem_cons.1 hm with h | h
            · exact hab.ne h
            · exact lt_asymm hab (hka _ h)
          constructor
          · intro k w
            rw [List.mem_cons, ihmem k w]
            by_cases hk : k = kb
            · subst hk
              have h1 : alookup ((ka, a) :: xs₀) k = none := alookup_eq_none hnl
              have h2 : k ∉ mapKeys ys₀ := fun hm => lt_irrefl k (hkb k hm)
              have h3 : alookup ys₀ k = none := alookup_eq_none h2
              have h4 : ∀ x : A, (k, x) ∉ xs₀ := fun x hx =>
                hnl (by rw [mapKeys_cons]; exact List.mem_cons_of_mem _ (mem_mapKeys.2 ⟨x, hx⟩))
              have h5 : ∀ x : B, (k, x) ∉ ys₀ := fun x hx => h2 (mem_mapKeys.2 ⟨x, hx⟩)
              have h6 : ka ≠ k := hab.ne'
              simp [h1, h3, h4, h5, h6, alookup_cons, mapKeys, mapKeys_cons, Prod.ext_iff,
                eq_comm]
            · simp [alookup_cons, hk, mapKeys, mapKeys_cons]
          · rw [mapKeys_cons, List.sorted_cons]
            refine ⟨fun x hx => ?_, ihsort⟩
            obtain ⟨w, hw⟩ := mem_mapKeys.1 hx
            obtain ⟨hu, -⟩ := (ihmem x w).1 hw
            rcases hu with hu | hu
            · rw [mapKeys_cons] at hu
              rcases List.mem_cons.1 hu with h | h
              · exact h ▸ hab
              · exact hab.trans (hka _ h)
            · exact hkb x hu
        · -- `kb = ka`: consume both sides, yield the left key
          have hab : kb = ka := compare_eq_iff_eq.1 hc
          subst hab
          rw [outerJoin_cons_eq hc]
          obtain ⟨ihmem, ihsort⟩ := ih xs₀ ys₀ (by omega) hsx₀ hsy₀
          constructor
          · intro k w
            rw [List.mem_cons, ihmem k w]
            by_cases hk : k = kb
            · subst hk
              have h1 : alookup xs₀ k = none :=
                alookup_eq_none (fun hm => lt_irrefl k (hka k hm))
              have h2 : alookup ys₀ k = none :=
                alookup_eq_none (fun hm => lt_irrefl k (hkb k hm))
              have h3 : k ∉ mapKeys xs₀ := fun hm => lt_irrefl k (hka k hm)
              have h4 : k ∉ mapKeys ys₀ := fun hm => lt_irrefl k (hkb k hm)
              have h5 : ∀ x : A, (k, x) ∉ xs₀ := fun x hx => h3 (mem_mapKeys.2 ⟨x, hx⟩)
              have h6 : ∀ x : B, (k, x) ∉ ys₀ := fun x hx => h4 (mem_mapKeys.2 ⟨x, hx⟩)
              simp [h1, h2, h5, h6, alookup_cons, mapKeys, mapKeys_cons, Prod.ext_iff,
                eq_comm]
            · simp [alookup_cons, hk, mapKeys, mapKeys_cons]
          · rw [mapKeys_cons, List.sorted_cons]
            refine ⟨fun x hx => ?_, ihsort⟩
            obtain ⟨w, hw⟩ := mem_mapKeys.1 hx
            obtain ⟨hu, -⟩ := (ihmem x w).1 hw
            rcases hu with hu | hu
            · exact hka x hu
            · exact hkb x hu
        · -- `kb > ka`: consume only the left side
          have hab : ka < kb := compare_gt_iff_gt.1 hc
          rw [outerJoin_cons_gt hc]
          obtain ⟨ihmem, ihsort⟩ :=
            ih xs₀ ((kb, b) :: ys₀) (by simp only [List.length_cons]; omega)
              hsx₀ (by rw [mapKeys_cons, List.sorted_cons]; exact ⟨hkb, hsy₀⟩)
          have hnr : ka ∉ mapKeys ((kb, b) :: ys₀) := by
            rw [mapKeys_cons]
            intro hm
            rcases List.mem_cons.1 hm with h | h
            · exact hab.ne h
            · exact lt_asymm hab (hkb _ h)
          constructor
          · intro k w
            rw [List.mem_cons, ihmem k w]
            by_cases hk : k = ka
            · subst hk
              have h1 : alookup ((kb, b) :: ys₀) k = none := alookup_eq_none hnr
              have h2 : k ∉ mapKeys xs₀ := fun hm => lt_irrefl k (hka k hm)
              have h3 : alookup xs₀ k = none := alookup_eq_none h2
              have h4 : ∀ x : A, (k, x) ∉ xs₀ := fun x hx => h2 (mem_mapKeys.2 ⟨x, hx⟩)
              have h5 : ∀ x : B, (k, x) ∉ ys₀ := fun x hx =>
                hnr (by rw [mapKeys_cons]; exact List.mem_cons_of_mem _ (mem_mapKeys.2 ⟨x, hx⟩))
              have h6 : kb ≠ k := hab.ne'
              simp [h1, h3, h4, h5, h6, alookup_cons, mapKeys, mapKeys_cons, Prod.ext_iff,
                eq_comm]
            · simp [alookup_cons, hk, mapKeys, mapKeys_cons]
          · rw [mapKeys_cons, List.sorted_cons]
            refine ⟨fun x hx => ?_, ihsort⟩
            obtain ⟨w, hw⟩ := mem_mapKeys.1 hx
            obtain ⟨hu, -⟩ := (ihmem x w).1 hw
            rcases hu with hu | hu
            · exact hka x hu
            · rw [mapKeys_cons] at hu
              rcases List.mem_cons.1 hu with h | h
              · exact h ▸ hab
              · exact hab.trans (hkb _ h)

/-- Full characterisation of the map–map inner join on sorted inputs. -/
theorem innerJoinMap_spec (xs : List (K × A)) (ys : List (K × B))
    (hsx : List.Sorted (· < ·) (mapKeys xs)) (hsy : List.Sorted (· < ·) (mapKeys ys)) :
    (∀ (k : K) (v : A × B),
        ((k, v) ∈ innerJoinMap xs ys ↔
          ∃ a b, v = (a, b) ∧ alookup xs k = some a ∧ alookup ys k = some b)) ∧
    List.Sorted (· < ·) (mapKeys (innerJoinMap xs ys)) :=
  innerJoinMap_spec_aux (xs.length + ys.length) xs ys le_rfl hsx hsy

/-- Full characterisation of the set–set inner join on sorted inputs. -/
theorem innerJoinSet_spec (xs ys : List K)
    (hsx : List.Sorted (· < ·) xs) (hsy : List.Sorted (· < ·) ys) :
    (∀ k : K, (k ∈ innerJoinSet xs ys ↔ k ∈ xs ∧ k ∈ ys)) ∧
    List.Sorted (· < ·) (innerJoinSet xs ys) :=
  innerJoinSet_spec_aux (xs.length + ys.length) xs ys le_rfl hsx hsy

/-- Full characterisation of the set-filtered map join on sorted inputs. -/
theorem innerJoinMapSet_spec (ms : List (K × A)) (ss : List K)
    (hsm : List.Sorted (· < ·) (mapKeys ms)) (hss : List.Sorted (· < ·) ss) :
    (∀ (k : K) (v : A),
        ((k, v) ∈ innerJoinMapSet ms ss ↔ k ∈ ss ∧ alookup ms k = some v)) ∧
    List.Sorted (· < ·) (mapKeys (innerJoinMapSet ms ss)) :=
  innerJoinMapSet_spec_aux (ms.length + ss.length) ms ss le_rfl hsm hss

/-- Full characterisation of the outer join on sorted inputs. -/
theorem outerJoin_spec (xs : List (K × A)) (ys : List (K × B))
    (hsx : List.Sorted (· < ·) (mapKeys xs)) (hsy : List.Sorted (· < ·) (mapKeys ys)) :
    (∀ (k : K) (w : Option A × Option B),
        ((k, w) ∈ outerJoin xs ys ↔
          (k ∈ mapKeys xs ∨ k ∈ mapKeys ys) ∧ w = (alookup xs k, alookup ys k))) ∧
    List.Sorted (· < ·) (mapKeys (outerJoin xs ys)) :=
  outerJoin_spec_aux (xs.length + ys.length) xs ys le_rfl hsx hsy

/-- When the comparison loop of the map–map join yields a match, every key
still unconsumed on either side is strictly greater than the matched key:
the matched elements are consumed and can never be compared again. -/
theorem innerJoinMapLoop_yield_bounds (fuel : Nat) :
    ∀ (ka : K) (da : A) (kb : K) (db : B) (xs : List (K × A)) (ys : List (K × B))
      (k : K) (v : A × B) (X : List (K × A)) (Y : List (K × B)),
      List.Sorted (· < ·) (ka :: mapKeys xs) →
      List.Sorted (· < ·) (kb :: mapKeys ys) →
      innerJoinMapLoop fuel ka da kb db xs ys = (some (k, v), (X, Y)) →
      (∀ x ∈ mapKeys X, k < x) ∧ (∀ y ∈ mapKeys Y, k < y) := by
  induction fuel with
  | zero =>
    intro ka da kb db xs ys k v X Y _ _ h
    simp [innerJoinMapLoop] at h
  | succ fuel ih =>
    intro ka da kb db xs ys k v X Y hsa hsb h
    rw [List.sorted_cons] at hsa hsb
    obtain ⟨hka, hsx⟩ := hsa
    obtain ⟨hkb, hsy⟩ := hsb
    simp only [innerJoinMapLoop] at h
    rcases hc : compare ka kb with _ | _ | _ <;> rw [hc] at h
    · cases xs with
      | nil => simp at h
      | cons p xs' =>
        obtain ⟨k', d'⟩ := p
        rw [mapKeys_cons] at hsx
        exact ih k' d' kb db xs' ys k v X Y hsx (List.sorted_cons.2 ⟨hkb, hsy⟩) h
    · have hab : ka = kb := compare_eq_iff_eq.1 hc
      simp only [Prod.mk.injEq, Option.some.injEq] at h
      obtain ⟨⟨hk1, -⟩, hX, hY⟩ := h
      subst hk1; subst hX; subst hY
      exact ⟨hka, fun y hy => by rw [hab]; exact hkb y hy⟩
    · cases ys with
      | nil => simp at h
      | cons q ys' =>
        obtain ⟨k', d'⟩ := q
        rw [mapKeys_cons] at hsy
        exact ih ka da k' d' xs ys' k v X Y (List.sorted_cons.2 ⟨hka, hsx⟩) hsy h

/-- After `InnerJoinMapIterator::next` yields a match, the remaining state of
both inputs lies strictly beyond the matched key. -/
theorem innerJoinMapNext_yield_bounds {xs : List (K × A)} {ys : List (K × B)}
    (hsx : List.Sorted (· < ·) (mapKeys xs)) (hsy : List.Sorted (· < ·) (mapKeys ys))
    {k : K} {v : A × B} {X : List (K × A)} {Y : List (K × B)}
    (h : innerJoinMapNext xs ys = (some (k, v), (X, Y))) :
    (∀ x ∈ mapKeys X, k < x) ∧ (∀ y ∈ mapKeys Y, k < y) := by
  cases xs with
  | nil => simp [innerJoinMapNext] at h
  | cons p xs' =>
    obtain ⟨ka, da⟩ := p
    cases ys with
    | nil => simp [innerJoinMapNext] at h
    | cons q ys' =>
      obtain ⟨kb, db⟩ := q
      rw [mapKeys_cons] at hsx hsy
      exact innerJoinMapLoop_yield_bounds (xs'.length + ys'.length + 1)
        ka da kb db xs' ys' k v X Y hsx hsy h

end Masters

section Exhaustion

variable [Ord K]

/-! ## Exhaustion: a pull that yields nothing leaves a drained state -/

theorem innerJoinMapLoop_none_state (fuel : Nat) :
    ∀ (ka : K) (da : A) (kb : K) (db : B) (xs : List (K × A)) (ys : List (K × B)),
      xs.length + ys.length + 1 ≤ fuel →
      (innerJoinMapLoop fuel ka da kb db xs ys).1 = none →
      (innerJoinMapLoop fuel ka da kb db xs ys).2.1 = [] ∨
      (innerJoinMapLoop fuel ka da kb db xs ys).2.2 = [] := by
  induction fuel with
  | zero => intro ka da kb db xs ys hf hn; omega
  | succ fuel ih =>
    intro ka da kb db xs ys hf hn
    simp only [innerJoinMapLoop] at hn ⊢
    rcases hc : compare ka kb with _ | _ | _ <;> rw [hc] at hn
    · cases xs with
      | nil => exact Or.inl rfl
      | cons p xs' =>
        obtain ⟨k, d⟩ := p
        simp only [List.length_cons] at hf
        exact ih k d kb db xs' ys (by omega) hn
    · exact Option.noConfusion hn
    · cases ys with
      | nil => exact Or.inr rfl
      | cons q ys' =>
        obtain ⟨k, d⟩ := q
        simp only [List.length_cons] at hf
        exact ih ka da k d xs ys' (by omega) hn

theorem innerJoinMapNext_none_state {xs : List (K × A)} {ys : List (K × B)}
    (h : (innerJoinMapNext xs ys).1 = none) :
    (innerJoinMapNext xs ys).2.1 = [] ∨ (innerJoinMapNext xs ys).2.2 = [] := by
  cases xs with
  | nil => exact Or.inl rfl
  | cons p xs' =>
    obtain ⟨ka, da⟩ := p
    cases ys with
    | nil => exact Or.inr rfl
    | cons q ys' =>
      obtain ⟨kb, db⟩ := q
      exact innerJoinMapLoop_none_state (xs'.length + ys'.length + 1) ka da kb db xs' ys'
        le_rfl h

theorem innerJoinMapNext_empty (xs : List (K × A)) (ys : List (K × B))
    (h : xs = [] ∨ ys = []) :
    (innerJoinMapNext xs ys).1 = none ∧
    ((innerJoinMapNext xs ys).2.1 = [] ∨ (innerJoinMapNext xs ys).2.2 = []) := by
  rcases h with rfl | rfl
  · exact ⟨rfl, Or.inl rfl⟩
  · cases xs with
    | nil => exact ⟨rfl, Or.inl rfl⟩
    | cons p xs' => exact ⟨rfl, Or.inr rfl⟩

theorem innerJoinSetLoop_none_state (fuel : Nat) :
    ∀ (ka kb : K) (xs ys : List K),
      xs.length + ys.length + 1 ≤ fuel →
      (innerJoinSetLoop fuel ka kb xs ys).1 = none →
      (innerJoinSetLoop fuel ka kb xs ys).2.1 = [] ∨
      (innerJoinSetLoop fuel ka kb xs ys).2.2 = [] := by
  induction fuel with
  | zero => intro ka kb xs ys hf hn; omega
  | succ fuel ih =>
    intro ka kb xs ys hf hn
    simp only [innerJoinSetLoop] at hn ⊢
    rcases hc : compare ka kb with _ | _ | _ <;> rw [hc] at hn
    · cases xs with
      | nil => exact Or.inl rfl
      | cons k xs' =>
        simp only [List.length_cons] at hf
        exact ih k kb xs' ys (by omega) hn
    · exact Option.noConfusion hn
    · cases ys with
      | nil => exact Or.inr rfl
      | cons k ys' =>
        simp only [List.length_cons] at hf
        exact ih ka k xs ys' (by omega) hn

theorem innerJoinSetNext_none_state {xs ys : List K}
    (h : (innerJoinSetNext xs ys).1 = none) :
    (innerJoinSetNext xs ys).2.1 = [] ∨ (innerJoinSetNext xs ys).2.2 = [] := by
  cases xs with
  | nil => exact Or.inl rfl
  | cons ka xs' =>
    cases ys with
    | nil => exact Or.inr rfl
    | cons kb ys' =>
      exact innerJoinSetLoop_none_state (xs'.length + ys'.length + 1) ka kb xs' ys'
        le_rfl h

theorem innerJoinSetNext_empty (xs ys : List K) (h : xs = [] ∨ ys = []) :
    (innerJoinSetNext xs ys).1 = none ∧
    ((innerJoinSetNext xs ys).2.1 = [] ∨ (innerJoinSetNext xs ys).2.2 = []) := by
  rcases h with rfl | rfl
  · exact ⟨rfl, Or.inl rfl⟩
  · cases xs with
    | nil => exact ⟨rfl, Or.inl rfl⟩
    | cons k xs' => exact ⟨rfl, Or.inr rfl⟩

theorem innerJoinMapSetLoop_none_state (fuel : Nat) :
    ∀ (ks km : K) (d : A) (ms : List (K × A)) (ss : List K),
      ms.length + ss.length + 1 ≤ fuel →
      (innerJoinMapSetLoop fuel ks km d ms ss).1 = none →
      (innerJoinMapSetLoop fuel ks km d ms ss).2.1 = [] ∨
      (innerJoinMapSetLoop fuel ks km d ms ss).2.2 = [] := by
  induction fuel with
  | zero => intro ks km d ms ss hf hn; omega
  | succ fuel ih =>
    intro ks km d ms ss hf hn
    simp only [innerJoinMapSetLoop] at hn ⊢
    rcases hc : compare ks km with _ | _ | _ <;> rw [hc] at hn
    · cases ss with
      | nil => exact Or.inr rfl
      | cons k ss' =>
        simp only [List.length_cons] at hf
        exact ih k km d ms ss' (by omega) hn
    · exact Option.noConfusion hn
    · cases ms with
      | nil => exact Or.inl rfl
      | cons p ms' =>
        obtain ⟨k, d'⟩ := p
        simp only [List.length_cons] at hf
        exact ih ks k d' ms' ss (by omega) hn

theorem innerJoinMapSetNext_none_state {ms : List (K × A)} {ss : List K}
    (h : (innerJoinMapSetNext ms ss).1 = none) :
    (innerJoinMapSetNext ms ss).2.1 = [] ∨ (innerJoinMapSetNext ms ss).2.2 = [] := by
  cases ss with
  | nil => exact Or.inr rfl
  | cons ks ss' =>
    cases ms with
    | nil => exact Or.inl rfl
    | cons p ms' =>
      obtain ⟨km, d⟩ := p
      exact innerJoinMapSetLoop_none_state (ss'.length + ms'.length + 1) ks km d ms' ss'
        (by omega) h

theorem innerJoinMapSetNext_empty (ms : List (K × A)) (ss : List K)
    (h : ms = [] ∨ ss = []) :
    (innerJoinMapSetNext ms ss).1 = none ∧
    ((innerJoinMapSetNext ms ss).2.1 = [] ∨ (innerJoinMapSetNext ms ss).2.2 = []) := by
  rcases h with rfl | rfl
  · cases ss with
    | nil => exact ⟨rfl, Or.inr rfl⟩
    | cons k ss' => exact ⟨rfl, Or.inl rfl⟩
  · exact ⟨rfl, Or.inr rfl⟩

/-- Exhaustion permanence of the map–map inner join as a state machine. -/
theorem innerJoinMapStep_exhaust (s : List (K × A) × List (K × B))
    (h : (innerJoinMapStep s).1 = none) (n : Nat) :
    (innerJoinMapStep (innerJoinMapAdvance^[n] (innerJoinMapAdvance s))).1 = none := by
  have key : ∀ t : List (K × A) × List (K × B), t.1 = [] ∨ t.2 = [] →
      (innerJoinMapStep t).1 = none ∧
      ((innerJoinMapAdvance t).1 = [] ∨ (innerJoinMapAdvance t).2 = []) :=
    fun t ht => innerJoinMapNext_empty t.1 t.2 ht
  have h0 : (innerJoinMapAdvance s).1 = [] ∨ (innerJoinMapAdvance s).2 = [] :=
    innerJoinMapNext_none_state h
  have aux : ∀ (m : Nat) (t : List (K × A) × List (K × B)), t.1 = [] ∨ t.2 = [] →
      (innerJoinMapStep (innerJoinMapAdvance^[m] t)).1 = none := by
    intro m
    induction m with
    | zero => intro t ht; exact (key t ht).1
    | succ m ihm =>
      intro t ht
      rw [Function.iterate_succ_apply]
      exact ihm _ (key t ht).2
  exact aux n _ h0

/-- Exhaustion permanence of the set–set inner join as a state machine. -/
theorem innerJoinSetStep_exhaust (s : List K × List K)
    (h : (innerJoinSetStep s).1 = none) (n : Nat) :
    (innerJoinSetStep (innerJoinSetAdvance^[n] (innerJoinSetAdvance s))).1 = none := by
  have key : ∀ t : List K × List K, t.1 = [] ∨ t.2 = [] →
      (innerJoinSetStep t).1 = none ∧
      ((innerJoinSetAdvance t).1 = [] ∨ (innerJoinSetAdvance t).2 = []) :=
    fun t ht => innerJoinSetNext_empty t.1 t.2 ht
  have h0 : (innerJoinSetAdvance s).1 = [] ∨ (innerJoinSetAdvance s).2 = [] :=
    innerJoinSetNext_none_state h
  have aux : ∀ (m : Nat) (t : List K × List K), t.1 = [] ∨ t.2 = [] →
      (innerJoinSetStep (innerJoinSetAdvance^[m] t)).1 = none := by
    intro m
    induction m with
    | zero => intro t ht; exact (key t ht).1
    | succ m ihm =>
      intro t ht
      rw [Function.iterate_succ_apply]
      exact ihm _ (key t ht).2
  exact aux n _ h0

/-- Exhaustion permanence of the set-filtered map join as a state machine. -/
theorem innerJoinMapSetStep_exhaust (s : List (K × A) × List K)
    (h : (innerJoinMapSetStep s).1 = none) (n : Nat) :
    (innerJoinMapSetStep (innerJoinMapSetAdvance^[n] (innerJoinMapSetAdvance s))).1
      = none := by
  have key : ∀ t : List (K × A) × List K, t.1 = [] ∨ t.2 = [] →
      (innerJoinMapSetStep t).1 = none ∧
      ((innerJoinMapSetAdvance t).1 = [] ∨ (innerJoinMapSetAdvance t).2 = []) :=
    fun t ht => innerJoinMapSetNext_empty t.1 t.2 ht
  have h0 : (innerJoinMapSetAdvance s).1 = [] ∨ (innerJoinMapSetAdvance s).2 = [] :=
    innerJoinMapSetNext_none_state h
  have aux : ∀ (m : Nat) (t : List (K × A) × List K), t.1 = [] ∨ t.2 = [] →
      (innerJoinMapSetStep (innerJoinMapSetAdvance^[m] t)).1 = none := by
    intro m
    induction m with
    | zero => intro t ht; exact (key t ht).1
    | succ m ihm =>
      intro t ht
      rw [Function.iterate_succ_apply]
      exact ihm _ (key t ht).2
  exact aux n _ h0

/-- Exhaustion permanence of the outer join as a state machine: a pull that
yields nothing does not even consume anything. -/
theorem outerJoinStep_exhaust (s : List (K × A) × List (K × B))
    (h : (outerJoinStep s).1 = none) (n : Nat) :
    (outerJoinStep (outerJoinAdvance^[n] (outerJoinAdvance s))).1 = none := by
  have hnone : outerJoinNext s.1 s.2 = none := by
    rcases hx : outerJoinNext s.1 s.2 with _ | ⟨o, st⟩
    · rfl
    · rw [outerJoinStep, hx] at h
      exact Option.noConfusion h
  have hs : outerJoinAdvance s = s := by
    simp [outerJoinAdvance, outerJoinStep, hnone]
  have hiter : ∀ m : Nat, outerJoinAdvance^[m] s = s := by
    intro m
    induction m with
    | zero => rfl
    | succ m ihm => rw [Function.iterate_succ_apply, hs, ihm]
  rw [hs, hiter n]
  simp [outerJoinStep, hnone]

end Exhaustion

section Claims

/-! ## The claims -/

/-- C1: for every pair of input sequences whose keys are strictly increasing,
each inner-join variant (map–map `inner_join_map`, set–set `inner_join_set`,
and the set-filtered map join) emits exactly the keys in the mathematical
intersection of the two input key sets — no extra keys and no missing
keys. -/
theorem c1_inner_join_intersection [LinearOrder K]
    (xs : List (K × A)) (ys : List (K × B)) (sa sb : List K)
    (ms : List (K × A)) (ss : List K)
    (h1 : IsOrderedMapSeq xs) (h2 : IsOrderedMapSeq ys)
    (h3 : IsOrderedSetSeq sa) (h4 : IsOrderedSetSeq sb)
    (h5 : IsOrderedMapSeq ms) (h6 : IsOrderedSetSeq ss) :
    (∀ k : K, k ∈ mapKeys (innerJoinMap xs ys) ↔ k ∈ mapKeys xs ∧ k ∈ mapKeys ys) ∧
    (∀ k : K, k ∈ innerJoinSet sa sb ↔ k ∈ sa ∧ k ∈ sb) ∧
    (∀ k : K, k ∈ mapKeys (innerJoinMapSet ms ss) ↔ k ∈ mapKeys ms ∧ k ∈ ss) := by
  refine ⟨fun k => ?_, fun k => (innerJoinSet_spec sa sb h3 h4).1 k, fun k => ?_⟩
  · rw [mem_mapKeys]
    constructor
    · rintro ⟨v, hv⟩
      obtain ⟨a, b, -, ha, hb⟩ := ((innerJoinMap_spec xs ys h1 h2).1 k v).1 hv
      exact ⟨alookup_isSome_iff.1 (by simp [ha]), alookup_isSome_iff.1 (by simp [hb])⟩
    · rintro ⟨hxk, hyk⟩
      obtain ⟨a, ha⟩ := Option.isSome_iff_exists.1 (alookup_isSome_iff.2 hxk)
      obtain ⟨b, hb⟩ := Option.isSome_iff_exists.1 (alookup_isSome_iff.2 hyk)
      exact ⟨(a, b), ((innerJoinMap_spec xs ys h1 h2).1 k (a, b)).2 ⟨a, b, rfl, ha, hb⟩⟩
  · rw [mem_mapKeys]
    constructor
    · rintro ⟨v, hv⟩
      obtain ⟨hks, hv'⟩ := ((innerJoinMapSet_spec ms ss h5 h6).1 k v).1 hv
      exact ⟨alookup_isSome_iff.1 (by simp [hv']), hks⟩
    · rintro ⟨hmk, hsk⟩
      obtain ⟨v, hv⟩ := Option.isSome_iff_exists.1 (alookup_isSome_iff.2 hmk)
      exact ⟨v, ((innerJoinMapSet_spec ms ss h5 h6).1 k v).2 ⟨hsk, hv⟩⟩

theorem c1_witness :
    IsOrderedMapSeq [(1, 10), (2, 20)] ∧ IsOrderedMapSeq [(2, 30)] ∧
    IsOrderedSetSeq [1, 2] ∧ IsOrderedSetSeq [2, 3] ∧
    IsOrderedMapSeq [(2, 5)] ∧ IsOrderedSetSeq [1, 2] ∧
    ((∀ k : Nat, k ∈ mapKeys (innerJoinMap [(1, 10), (2, 20)] [(2, 30)]) ↔
        k ∈ mapKeys [(1, 10), (2, 20)] ∧ k ∈ mapKeys [(2, 30)]) ∧
     (∀ k : Nat, k ∈ innerJoinSet [1, 2] [2, 3] ↔
        k ∈ ([1, 2] : List Nat) ∧ k ∈ ([2, 3] : List Nat)) ∧
     (∀ k : Nat, k ∈ mapKeys (innerJoinMapSet [(2, 5)] [1, 2]) ↔
        k ∈ mapKeys [(2, 5)] ∧ k ∈ ([1, 2] : List Nat))) :=
  ⟨by decide, by decide, by decide, by decide, by decide, by decide,
   c1_inner_join_intersection [(1, 10), (2, 20)] [(2, 30)] [1, 2] [2, 3] [(2, 5)] [1, 2]
     (by decide) (by decide) (by decide) (by decide) (by decide) (by decide)⟩

/-- C2: for every pair of strictly-increasing map inputs, `outer_join` emits
every key that appears in either input exactly once, in increasing order,
paired with a value `(Option Va, Option Vb)` that is `some` for each side
that contained the key and `none` for each side that did not. -/
theorem c2_outer_join_union [LinearOrder K]
    (xs : List (K × A)) (ys : List (K × B))
    (h1 : IsOrderedMapSeq xs) (h2 : IsOrderedMapSeq ys) :
    (∀ k : K, k ∈ mapKeys (outerJoin xs ys) ↔ k ∈ mapKeys xs ∨ k ∈ mapKeys ys) ∧
    (∀ (k : K) (w : Option A × Option B), (k, w) ∈ outerJoin xs ys →
        w = (alookup xs k, alookup ys k)) ∧
    (∀ k : K, (k ∈ mapKeys xs ∨ k ∈ mapKeys ys) →
        (mapKeys (outerJoin xs ys)).count k = 1) ∧
    List.Sorted (· < ·) (mapKeys (outerJoin xs ys)) := by
  obtain ⟨hmem, hsort⟩ := outerJoin_spec xs ys h1 h2
  have hkey : ∀ k : K,
      k ∈ mapKeys (outerJoin xs ys) ↔ k ∈ mapKeys xs ∨ k ∈ mapKeys ys := by
    intro k
    rw [mem_mapKeys]
    constructor
    · rintro ⟨w, hw⟩
      exact ((hmem k w).1 hw).1
    · intro hu
      exact ⟨(alookup xs k, alookup ys k), (hmem k _).2 ⟨hu, rfl⟩⟩
  exact ⟨hkey, fun k w hw => ((hmem k w).1 hw).2,
    fun k hu => List.count_eq_one_of_mem hsort.nodup ((hkey k).2 hu), hsort⟩

theorem c2_witness :
    IsOrderedMapSeq [(0, 0), (3, 1)] ∧ IsOrderedMapSeq [(0, 0), (5, 1)] ∧
    ((∀ k : Nat, k ∈ mapKeys (outerJoin [(0, 0), (3, 1)] [(0, 0), (5, 1)]) ↔
        k ∈ mapKeys [(0, 0), (3, 1)] ∨ k ∈ mapKeys [(0, 0), (5, 1)]) ∧
     (∀ (k : Nat) (w : Option Nat × Option Nat),
        (k, w) ∈ outerJoin [(0, 0), (3, 1)] [(0, 0), (5, 1)] →
        w = (alookup [(0, 0), (3, 1)] k, alookup [(0, 0), (5, 1)] k)) ∧
     (∀ k : Nat, (k ∈ mapKeys [(0, 0), (3, 1)] ∨ k ∈ mapKeys [(0, 0), (5, 1)]) →
        (mapKeys (outerJoin [(0, 0), (3, 1)] [(0, 0), (5, 1)])).count k = 1) ∧
     List.Sorted (· < ·) (mapKeys (outerJoin [(0, 0), (3, 1)] [(0, 0), (5, 1)]))) :=
  ⟨by decide, by decide,
   c2_outer_join_union [(0, 0), (3, 1)] [(0, 0), (5, 1)] (by decide) (by decide)⟩

/-- C3: for every join variant, if both input sequences yield strictly
increasing keys then the key sequence emitted by the join is strictly
increasing. -/
theorem c3_ordering_invariant [LinearOrder K]
    (xs : List (K × A)) (ys : List (K × B)) (sa sb : List K)
    (ms : List (K × A)) (ss : List K)
    (h1 : IsOrderedMapSeq xs) (h2 : IsOrderedMapSeq ys)
    (h3 : IsOrderedSetSeq sa) (h4 : IsOrderedSetSeq sb)
    (h5 : IsOrderedMapSeq ms) (h6 : IsOrderedSetSeq ss) :
    List.Sorted (· < ·) (mapKeys (innerJoinMap xs ys)) ∧
    List.Sorted (· < ·) (innerJoinSet sa sb) ∧
    List.Sorted (· < ·) (mapKeys (innerJoinMapSet ms ss)) ∧
    List.Sorted (· < ·) (mapKeys (outerJoin xs ys)) :=
  ⟨(innerJoinMap_spec xs ys h1 h2).2, (innerJoinSet_spec sa sb h3 h4).2,
   (innerJoinMapSet_spec ms ss h5 h6).2, (outerJoin_spec xs ys h1 h2).2⟩

theorem c3_witness :
    IsOrderedMapSeq [(1, 10), (2, 20)] ∧ IsOrderedMapSeq [(2, 30)] ∧
    IsOrderedSetSeq [1, 2] ∧ IsOrderedSetSeq [2, 3] ∧
    IsOrderedMapSeq [(2, 5)] ∧ IsOrderedSetSeq [1, 2] ∧
    (List.Sorted (· < ·) (mapKeys (innerJoinMap [(1, 10), (2, 20)] [(2, 30)])) ∧
     List.Sorted (· < ·) (innerJoinSet [1, 2] [2, 3]) ∧
     List.Sorted (· < ·) (mapKeys (innerJoinMapSet [(2, 5)] [1, 2])) ∧
     List.Sorted (· < ·) (mapKeys (outerJoin [(1, 10), (2, 20)] [(2, 30)]))) :=
  ⟨by decide, by decide, by decide, by decide, by decide, by decide,
   c3_ordering_invariant [(1, 10), (2, 20)] [(2, 30)] [1, 2] [2, 3] [(2, 5)] [1, 2]
     (by decide) (by decide) (by decide) (by decide) (by decide) (by decide)⟩

/-- C4 (code bug): the claim — and spec §6 — say every join sequence
satisfies the ordered map or ordered set sequence contract, in particular
that the outer join satisfies the ordered map sequence contract so its
result can feed a further join.  The source declares the marker impls only
for the three inner-join iterators (src/lib.rs:275-297); `OuterJoinIterator`
implements neither trait, so an outer-join result cannot feed any further
join.  The omission is a slip, not a semantic necessity: at the failing
input `[(1, 10)].outer_join([(2, 20)])` (as in general, by
`outerJoin_spec`) the emitted sequence does satisfy the ordered map
sequence contract. -/
theorem c4_outer_join_contract_missing :
    implementsOrderedMapIterator .outerJoinIterator = false ∧
    implementsOrderedSetIterator .outerJoinIterator = false ∧
    implementsOrderedMapIterator .innerJoinMapIterator = true ∧
    implementsOrderedSetIterator .innerJoinSetIterator = true ∧
    implementsOrderedMapIterator .innerJoinMapSetIterator = true ∧
    IsOrderedMapSeq (outerJoin [((1 : Nat), (10 : Nat))] [((2 : Nat), (20 : Nat))]) :=
  ⟨rfl, rfl, rfl, rfl, rfl, by decide⟩

/-- C5: exhaustion is permanent for every join variant: once a pull of a
join sequence yields no result, every subsequent pull also yields no result
(the list model of an input keeps yielding nothing after exhaustion by
construction). -/
theorem c5_exhaustion_permanent [Ord K] :
    (∀ s : List (K × A) × List (K × B), (innerJoinMapStep s).1 = none →
        ∀ n : Nat,
          (innerJoinMapStep (innerJoinMapAdvance^[n] (innerJoinMapAdvance s))).1 = none) ∧
    (∀ s : List K × List K, (innerJoinSetStep s).1 = none →
        ∀ n : Nat,
          (innerJoinSetStep (innerJoinSetAdvance^[n] (innerJoinSetAdvance s))).1 = none) ∧
    (∀ s : List (K × A) × List K, (innerJoinMapSetStep s).1 = none →
        ∀ n : Nat,
          (innerJoinMapSetStep
            (innerJoinMapSetAdvance^[n] (innerJoinMapSetAdvance s))).1 = none) ∧
    (∀ s : List (K × A) × List (K × B), (outerJoinStep s).1 = none →
        ∀ n : Nat,
          (outerJoinStep (outerJoinAdvance^[n] (outerJoinAdvance s))).1 = none) :=
  ⟨innerJoinMapStep_exhaust, innerJoinSetStep_exhaust,
   innerJoinMapSetStep_exhaust, outerJoinStep_exhaust⟩

theorem c5_witness :
    (innerJoinMapStep (([(1, 2)], []) : List (Nat × Nat) × List (Nat × Nat))).1 = none ∧
    (innerJoinMapStep (innerJoinMapAdvance^[2] (innerJoinMapAdvance
      (([(1, 2)], []) : List (Nat × Nat) × List (Nat × Nat))))).1 = none ∧
    (innerJoinSetStep (([3], []) : List Nat × List Nat)).1 = none ∧
    (innerJoinSetStep (innerJoinSetAdvance^[2] (innerJoinSetAdvance
      (([3], []) : List Nat × List Nat)))).1 = none ∧
    (innerJoinMapSetStep (([(1, 2)], []) : List (Nat × Nat) × List Nat)).1 = none ∧
    (innerJoinMapSetStep (innerJoinMapSetAdvance^[2] (innerJoinMapSetAdvance
      (([(1, 2)], []) : List (Nat × Nat) × List Nat)))).1 = none ∧
    (outerJoinStep (([], []) : List (Nat × Nat) × List (Nat × Nat))).1 = none ∧
    (outerJoinStep (outerJoinAdvance^[2] (outerJoinAdvance
      (([], []) : List (Nat × Nat) × List (Nat × Nat))))).1 = none :=
  ⟨by decide,
   (c5_exhaustion_permanent (K := Nat) (A := Nat) (B := Nat)).1 _ (by decide) 2,
   by decide,
   (c5_exhaustion_permanent (K := Nat) (A := Nat) (B := Nat)).2.1 _ (by decide) 2,
   by decide,
   (c5_exhaustion_permanent (K := Nat) (A := Nat) (B := Nat)).2.2.1 _ (by decide) 2,
   by decide,
   (c5_exhaustion_permanent (K := Nat) (A := Nat) (B := Nat)).2.2.2 _ (by decide) 2⟩

/-- C6: for every key in the intersection of two strictly-increasing map
inputs, the map–map inner join emits the pair `(k, (a, b))` with the left
value first; and after such a match the matched elements of both sides are
consumed and never re-compared (every remaining key is strictly greater
than the matched one). -/
theorem c6_map_join_pairs [LinearOrder K] (xs : List (K × A)) (ys : List (K × B))
    (h1 : IsOrderedMapSeq xs) (h2 : IsOrderedMapSeq ys) :
    (∀ (k : K) (a : A) (b : B), alookup xs k = some a → alookup ys k = some b →
        (k, (a, b)) ∈ innerJoinMap xs ys) ∧
    (∀ (k : K) (v : A × B) (X : List (K × A)) (Y : List (K × B)),
        innerJoinMapNext xs ys = (some (k, v), (X, Y)) →
        (∀ x ∈ mapKeys X, k < x) ∧ (∀ y ∈ mapKeys Y, k < y)) :=
  ⟨fun k a b ha hb => ((innerJoinMap_spec xs ys h1 h2).1 k (a, b)).2 ⟨a, b, rfl, ha, hb⟩,
   fun _ _ _ _ h => innerJoinMapNext_yield_bounds h1 h2 h⟩

theorem c6_witness :
    IsOrderedMapSeq [(1, 10), (2, 20)] ∧ IsOrderedMapSeq [(2, 30)] ∧
    ((∀ (k a b : Nat), alookup [(1, 10), (2, 20)] k = some a →
        alookup [(2, 30)] k = some b →
        (k, (a, b)) ∈ innerJoinMap [(1, 10), (2, 20)] [(2, 30)]) ∧
     (∀ (k : Nat) (v : Nat × Nat) (X : List (Nat × Nat)) (Y : List (Nat × Nat)),
        innerJoinMapNext [(1, 10), (2, 20)] [(2, 30)] = (some (k, v), (X, Y)) →
        (∀ x ∈ mapKeys X, k < x) ∧ (∀ y ∈ mapKeys Y, k < y))) :=
  ⟨by decide, by decide,
   c6_map_join_pairs [(1, 10), (2, 20)] [(2, 30)] (by decide) (by decide)⟩

/-- C7: the set-filtered map join is reachable from either operand with
identical results: `s.inner_join_map(m)` and `m.inner_join_set(s)` build
the very same `InnerJoinMapSetIterator` state, hence produce the same
sequence of pairs. -/
theorem c7_symmetric_construction [Ord K] (ss : List K) (ms : List (K × A)) :
    setInnerJoinMap ss ms = mapInnerJoinSet ms ss ∧
    innerJoinMapSetRun (setInnerJoinMap ss ms) =
      innerJoinMapSetRun (mapInnerJoinSet ms ss) :=
  ⟨rfl, rfl⟩

/-- C8: set–set joins compose: joining the result of a set–set join with a
third strictly-increasing set sequence emits exactly the keys in the
intersection of all three key sets, in increasing order; in particular for
multiples of 2, 3, 5 with factors 1..99 the result is
`[30, 60, 90, 120, 150, 180]`. -/
theorem c8_set_join_composes [LinearOrder K] (sa sb sc : List K)
    (h1 : IsOrderedSetSeq sa) (h2 : IsOrderedSetSeq sb) (h3 : IsOrderedSetSeq sc) :
    (∀ k : K, k ∈ innerJoinSet (innerJoinSet sa sb) sc ↔
        k ∈ sa ∧ k ∈ sb ∧ k ∈ sc) ∧
    IsOrderedSetSeq (innerJoinSet (innerJoinSet sa sb) sc) ∧
    innerJoinSet (innerJoinSet ((List.range 99).map fun x => (x + 1) * 2)
        ((List.range 99).map fun x => (x + 1) * 3))
      ((List.range 99).map fun x => (x + 1) * 5) = [30, 60, 90, 120, 150, 180] := by
  obtain ⟨hmem12, hsort12⟩ := innerJoinSet_spec sa sb h1 h2
  obtain ⟨hmem, hsort⟩ := innerJoinSet_spec (innerJoinSet sa sb) sc hsort12 h3
  refine ⟨fun k => ?_, hsort, by decide⟩
  rw [hmem k, hmem12 k, and_assoc]

theorem c8_witness :
    IsOrderedSetSeq [2, 4, 6] ∧ IsOrderedSetSeq [3, 6] ∧ IsOrderedSetSeq [6, 12] ∧
    ((∀ k : Nat, k ∈ innerJoinSet (innerJoinSet [2, 4, 6] [3, 6]) [6, 12] ↔
        k ∈ ([2, 4, 6] : List Nat) ∧ k ∈ ([3, 6] : List Nat) ∧
          k ∈ ([6, 12] : List Nat)) ∧
     IsOrderedSetSeq (innerJoinSet (innerJoinSet [2, 4, 6] [3, 6]) [6, 12]) ∧
     innerJoinSet (innerJoinSet ((List.range 99).map fun x => (x + 1) * 2)
         ((List.range 99).map fun x => (x + 1) * 3))
       ((List.range 99).map fun x => (x + 1) * 5) = [30, 60, 90, 120, 150, 180]) :=
  ⟨by decide, by decide, by decide,
   c8_set_join_composes [2, 4, 6] [3, 6] [6, 12] (by decide) (by decide) (by decide)⟩

/-- C9: in `OuterJoinIterator::next`, every consuming call that follows a
successful peek returns an element, so none of the three
`.expect("no value found")` panic branches is reachable (the panic-explicit
embedding never returns its panic value), and each pull consumes at most
one element from each input. -/
theorem c9_outer_next_total [Ord K] (xs : List (K × A)) (ys : List (K × B)) :
    (outerJoinNextE xs ys).isSome ∧
    ∀ (o : K × (Option A × Option B)) (X : List (K × A)) (Y : List (K × B)),
      outerJoinNextE xs ys = some (some (o, (X, Y))) →
      (X = xs ∨ X = xs.tail) ∧ (Y = ys ∨ Y = ys.tail) :=
  ⟨outerJoinNextE_isSome xs ys, fun _ _ _ h => outerJoinNextE_consume h⟩

theorem c9_witness :
    (outerJoinNextE [(1, 10)] [(2, 20)]).isSome ∧
    outerJoinNextE [(1, 10)] [(2, 20)] =
      some (some (((1 : Nat), (some (10 : Nat), (none : Option Nat))),
        (([] : List (Nat × Nat)), [(2, 20)]))) ∧
    ((([] : List (Nat × Nat)) = [(1, 10)] ∨
        ([] : List (Nat × Nat)) = [(1, 10)].tail) ∧
     ([(2, 20)] = [(2, 20)] ∨ [(2, 20)] = ([(2, 20)] : List (Nat × Nat)).tail)) :=
  ⟨(c9_outer_next_total [(1, 10)] [(2, 20)]).1, by rfl,
   (c9_outer_next_total [(1, 10)] [(2, 20)]).2
     (1, (some 10, none)) [] [(2, 20)] (by rfl)⟩

/-- C10: when the two current keys compare equal, every join variant emits
the key obtained from one fixed operand and discards the other, equal key:
the left/first operand's key for the map–map, set–set and outer joins, and
the set operand's key for the set-filtered map join; in each case both
current elements are consumed. -/
theorem c10_equal_key_owner [Ord K] :
    (∀ (ka kb : K) (da : A) (db : B) (xs : List (K × A)) (ys : List (K × B)),
        compare ka kb = .eq →
        innerJoinMapNext ((ka, da) :: xs) ((kb, db) :: ys) =
          (some (ka, (da, db)), (xs, ys))) ∧
    (∀ (ka kb : K) (xs ys : List K),
        compare ka kb = .eq →
        innerJoinSetNext (ka :: xs) (kb :: ys) = (some ka, (xs, ys))) ∧
    (∀ (ks km : K) (d : A) (ms : List (K × A)) (ss : List K),
        compare ks km = .eq →
        innerJoinMapSetNext ((km, d) :: ms) (ks :: ss) = (some (ks, d), (ms, ss))) ∧
    (∀ (ka kb : K) (a : A) (b : B) (xs : List (K × A)) (ys : List (K × B)),
        compare kb ka = .eq →
        outerJoinNext ((ka, a) :: xs) ((kb, b) :: ys) =
          some ((ka, (some a, some b)), (xs, ys))) := by
  refine ⟨fun ka kb da db xs ys hc => ?_, fun ka kb xs ys hc => ?_,
    fun ks km d ms ss hc => ?_, fun ka kb a b xs ys hc => ?_⟩
  · simp [innerJoinMapNext, innerJoinMapLoop, hc]
  · simp [innerJoinSetNext, innerJoinSetLoop, hc]
  · simp [innerJoinMapSetNext, innerJoinMapSetLoop, hc]
  · simp [outerJoinNext, outerJoinNextE, hc]

theorem c10_witness :
    compare (5 : Nat) 5 = Ordering.eq ∧
    innerJoinMapNext [((5 : Nat), (1 : Nat))] [((5 : Nat), (2 : Nat))] =
      (some (5, (1, 2)), ([], [])) ∧
    innerJoinSetNext [(5 : Nat)] [5] = (some 5, ([], [])) ∧
    innerJoinMapSetNext [((5 : Nat), (7 : Nat))] [5] = (some (5, 7), ([], [])) ∧
    outerJoinNext [((5 : Nat), (1 : Nat))] [((5 : Nat), (2 : Nat))] =
      some ((5, (some 1, some 2)), ([], [])) :=
  ⟨by decide,
   (c10_equal_key_owner (K := Nat) (A := Nat) (B := Nat)).1 5 5 1 2 [] [] (by decide),
   (c10_equal_key_owner (K := Nat) (A := Nat) (B := Nat)).2.1 5 5 [] [] (by decide),
   (c10_equal_key_owner (K := Nat) (A := Nat) (B := Nat)).2.2.1 5 5 7 [] [] (by decide),
   (c10_equal_key_owner (K := Nat) (A := Nat) (B := Nat)).2.2.2 5 5 1 2 [] []
     (by decide)⟩

end Claims

end OrderedIter
